import Mathlib

/-!
Verification of the YASK stencil-engine runtime kernel against its
natural-language specification.  The definitions below are shallow
embeddings of the C++ sources (src/kernel/lib/context.cpp,
src/kernel/lib/yk_var_apis.cpp, and the compiler-side Var methods);
`idx_t` is modelled as `Int` and C++ `/` as truncated division.
-/

namespace Yask

/-- C++ signed integer division (truncation toward zero), the semantics of
`/` on `idx_t`. -/
def cppDiv (a b : Int) : Int := Int.tdiv a b

/-- The `CEIL_DIV(numer, denom)` macro: `(((numer) + (denom) - 1) / (denom))`. -/
def ceilDiv (n d : Int) : Int := cppDiv (n + d - 1) d

/-- The `ROUND_UP(n, mult)` macro: `CEIL_DIV(n, mult) * (mult)`. -/
def roundUp (n m : Int) : Int := ceilDiv n m * m

/-! ## C4: temporal-blocking trapezoid geometry

`StencilContext::update_tb_info` (yk_var_apis.cpp lines 1736-1757) computes
the phase-0 trapezoid base width `tb_widths[j]` and top width `tb_tops[j]`
per domain dim; `StencilContext::shift_mini_block` (context.cpp lines
1225-1232) recomputes a phase-0 block width during mini-block shifting. -/

/-- `tb_widths[j]` from the final loop of `update_tb_info`:
when `num_tb_shifts > 0 && tb_angle > 0`, the rounded-up half-block-plus-shift
width clamped below by `min_top_sz + 2*sa`; otherwise the whole block. -/
def tbWidth (blkSz numTbShifts tbAngle fpts : Int) : Int :=
  if 0 < numTbShifts ∧ 0 < tbAngle then
    let sa := numTbShifts * tbAngle
    let minBlkWidth := fpts + 2 * sa
    let w := roundUp (ceilDiv blkSz 2 + sa) fpts
    max w minBlkWidth
  else blkSz

/-- `tb_tops[j]` from the same loop of `update_tb_info`:
`max(blk_width - 2*sa, 0)` under the same condition, else the whole block. -/
def tbTop (blkSz numTbShifts tbAngle fpts : Int) : Int :=
  if 0 < numTbShifts ∧ 0 < tbAngle then
    let sa := numTbShifts * tbAngle
    max (tbWidth blkSz numTbShifts tbAngle fpts - 2 * sa) 0
  else blkSz

/-- The phase-0 initial block width computed inside
`StencilContext::shift_mini_block` (context.cpp lines 1227-1230).  Note the
shift distance there is `sa = (num_tb_shifts+1) * tb_angle`. -/
def mbPhase0Width (blkStart blkStop numTbShifts tbAngle fpts : Int) : Int :=
  let sa := (numTbShifts + 1) * tbAngle
  let w := roundUp (ceilDiv (blkStop - blkStart) 2 + sa) fpts
  max w (2 * sa + fpts)

/-- The phase-0 `blk_stop` computed by `shift_mini_block` before the
per-shift adjustments (context.cpp lines 1226-1232): applied only when
`nphases > 1 && !is_one_blk`. -/
def mbPhase0Stop (blkStart blkStop blockBaseStop numTbShifts tbAngle fpts
    nphases : Int) (isOneBlk : Bool) : Int :=
  if 1 < nphases ∧ isOneBlk = false then
    min (blkStart + mbPhase0Width blkStart blkStop numTbShifts tbAngle fpts)
      blockBaseStop
  else blkStop

/-- The base-width formula exactly as the claim states it:
`round_up(ceil(block/2) + num_tb_shifts*tb_angle, vlen)` clamped below by
`vlen + 2*num_tb_shifts*tb_angle`. -/
def claimedTbWidth (blk numTbShifts tbAngle vlen : Int) : Int :=
  max (roundUp (ceilDiv blk 2 + numTbShifts * tbAngle) vlen)
    (vlen + 2 * (numTbShifts * tbAngle))

/-- C4 counterexample: with `block = 32`, `num_tb_shifts = 1`,
`tb_angle = 1`, `vlen = 1`, two phases and a non-spanning block, the
phase-0 bound computed during mini-block shifting is 18, while the claimed
base-width formula with shift count `num_tb_shifts` predicts a bound of 17;
so the mini-block path does not use the same shift count. -/
theorem C4_counterexample :
    mbPhase0Stop 0 32 100 1 1 1 2 false = 18 ∧
    min (0 + claimedTbWidth 32 1 1 1) 100 = 17 ∧
    tbWidth 32 1 1 1 = 17 := by decide

/-- C4 (amended): when temporal blocking is active in dim `d`
(`num_tb_shifts > 0` and `tb_angle > 0`), the base width equals
`round_up(ceil(block/2) + num_tb_shifts*tb_angle, vlen)` clamped below by
`vlen + 2*num_tb_shifts*tb_angle`, and the top width equals
`max(base - 2*num_tb_shifts*tb_angle, 0)`; the phase-0 block bound computed
during mini-block shifting uses the same base-width formula but with shift
count `num_tb_shifts + 1`. -/
theorem C4_tb_trapezoid (blk numTbShifts tbAngle vlen blkStart blkStop
    blockBaseStop nphases : Int)
    (hs : 0 < numTbShifts) (ha : 0 < tbAngle) (hp : 1 < nphases) :
    tbWidth blk numTbShifts tbAngle vlen
      = claimedTbWidth blk numTbShifts tbAngle vlen ∧
    tbTop blk numTbShifts tbAngle vlen
      = max (tbWidth blk numTbShifts tbAngle vlen
             - 2 * (numTbShifts * tbAngle)) 0 ∧
    mbPhase0Stop blkStart blkStop blockBaseStop numTbShifts tbAngle vlen
        nphases false
      = min (blkStart
             + claimedTbWidth (blkStop - blkStart) (numTbShifts + 1) tbAngle
                 vlen)
          blockBaseStop := by
  refine ⟨?_, ?_, ?_⟩
  · simp only [tbWidth, claimedTbWidth, if_pos (And.intro hs ha)]
  · simp only [tbTop, if_pos (And.intro hs ha)]
  · simp only [mbPhase0Stop, mbPhase0Width, claimedTbWidth]
    rw [if_pos (And.intro hp trivial : 1 < nphases ∧ True)]
    ring_nf

/-- C4 witness: the amended theorem instantiated at
`blk = 32, shifts = 1, angle = 1, vlen = 1, start = 0, stop = 32,
base stop = 100, nphases = 2`. -/
theorem C4_tb_trapezoid_witness :
    (0 : Int) < 1 ∧ (1 : Int) < 2 ∧
    tbWidth 32 1 1 1 = claimedTbWidth 32 1 1 1 ∧
    mbPhase0Stop 0 32 100 1 1 1 2 false
      = min (0 + claimedTbWidth (32 - 0) (1 + 1) 1 1) 100 := by
  have h := C4_tb_trapezoid 32 1 1 1 0 32 100 2
    (by decide) (by decide) (by decide)
  exact ⟨by decide, by decide, h.1, h.2.2⟩

/-! ## C3: `StencilContext::shift_region` (context.cpp lines 1088-1153) -/

/-- The per-domain-dim inputs read by the loop body of `shift_region`:
the base region bounds, the wavefront angle `wf_angles[j]`, the pack's
extended bounding box (when a pack is supplied), the rank BB
`rank_bb.bb_begin/bb_end[j]`, and the wavefront extensions
`left_wf_exts[j]` / `right_wf_exts[j]`. -/
structure ShiftDim where
  baseStart : Int
  baseStop : Int
  angle : Int
  packBB : Option (Int × Int)
  dbegin : Int
  dend : Int
  leftExt : Int
  rightExt : Int

/-- The `(rstart, rstop)` computed by one iteration of the
`DOMAIN_VAR_LOOP` in `shift_region` (context.cpp lines 1103-1139). -/
def shiftRegionDim (d : ShiftDim) (shiftNum : Int) : Int × Int :=
  let rstart := d.baseStart - d.angle * shiftNum
  let rstop := d.baseStop - d.angle * shiftNum
  let rstart := match d.packBB with
    | some bb => max rstart bb.1
    | none => rstart
  let rstop := match d.packBB with
    | some bb => min rstop bb.2
    | none => rstop
  let rstart := if rstart < d.dbegin ∧ d.leftExt ≠ 0 then
      max rstart (d.dbegin - d.leftExt + shiftNum * d.angle)
    else rstart
  let rstop := if d.dend < rstop ∧ d.rightExt ≠ 0 then
      min rstop (d.dend + d.rightExt - shiftNum * d.angle)
    else rstop
  (rstart, rstop)

/-- `shift_region`: the begin/end written into `idxs` per dim, and the
returned flag, which starts `true` and is set `false` by any dim with
`rstop <= rstart`. -/
def shift_region (dims : List ShiftDim) (shiftNum : Int) :
    List (Int × Int) × Bool :=
  let rs := dims.map (fun d => shiftRegionDim d shiftNum)
  (rs, rs.all (fun r => decide (r.1 < r.2)))

/-- The per-dim computation exactly as the claim words it:
`start = base_start - s*angle` and `stop = base_stop - s*angle`, clamped to
the pack's bounding box when a pack is supplied, then `start` raised within
the left wave-front extension to at least
`domain_begin - left_wf_ext + s*angle` and `stop` lowered within the right
extension to at most `domain_end + right_wf_ext - s*angle`. -/
def shiftRegionDimSpec (d : ShiftDim) (s : Int) : Int × Int :=
  let start0 := d.baseStart - s * d.angle
  let stop0 := d.baseStop - s * d.angle
  let start1 := match d.packBB with
    | some bb => max start0 bb.1
    | none => start0
  let stop1 := match d.packBB with
    | some bb => min stop0 bb.2
    | none => stop0
  let start2 := if start1 < d.dbegin ∧ d.leftExt ≠ 0 then
      max start1 (d.dbegin - d.leftExt + s * d.angle)
    else start1
  let stop2 := if d.dend < stop1 ∧ d.rightExt ≠ 0 then
      min stop1 (d.dend + d.rightExt - s * d.angle)
    else stop1
  (start2, stop2)

/-- C3: for every shift count `s ≥ 0`, `shift_region` computes in each
domain dim exactly the start/stop described by the claim, and returns
`false` (region skipped) iff `stop ≤ start` in some domain dim. -/
theorem C3_shift_region (dims : List ShiftDim) (s : Int) (hs : 0 ≤ s) :
    (shift_region dims s).1 = dims.map (fun d => shiftRegionDimSpec d s) ∧
    ((shift_region dims s).2 = false ↔
      ∃ r ∈ (shift_region dims s).1, r.2 ≤ r.1) := by
  have hdim : ∀ d : ShiftDim, shiftRegionDim d s = shiftRegionDimSpec d s := by
    intro d
    simp only [shiftRegionDim, shiftRegionDimSpec, mul_comm]
  constructor
  · simp only [shift_region]
    exact List.map_congr_left (fun d _ => hdim d)
  · simp only [shift_region, List.all_eq_false, decide_eq_true_eq, not_lt]

/-- C3 witness: instantiation at one dim with a pack BB and both
extensions active, shift count 1. -/
theorem C3_shift_region_witness :
    (0 : Int) ≤ 1 ∧
    (shift_region [⟨0, 10, 2, some (1, 9), 0, 8, 4, 4⟩] 1).1
      = [shiftRegionDimSpec ⟨0, 10, 2, some (1, 9), 0, 8, 4, 4⟩ 1] ∧
    (shift_region [⟨0, 10, 2, some (1, 9), 0, 8, 4, 4⟩] 1).2 = true := by
  have h := C3_shift_region [⟨0, 10, 2, some (1, 9), 0, 8, 4, 4⟩] 1
    (by decide)
  refine ⟨by decide, ?_, by decide⟩
  simpa using h.1

end Yask

/-! ## C5/C6: `StencilContext::setupRank` (yk_var_apis.cpp lines 530-734)

Ranks are indexed `0 .. n-1`; `coords rn d` is the rank-coordinate table
built by the broadcasts (lines 550-581) and `sizes rn d` the rank-domain
size table.  `me` is this rank. -/

namespace SetupRank

/-- `rdeltas[d]`: coord offset of rank `rn` from rank `me` in dim `d`
(yk_var_apis.cpp line 591). -/
def rdelta (coords : Nat → Nat → Int) (me rn d : Nat) : Int :=
  coords rn d - coords me d

/-- `mandist`: Manhattan distance of rank `rn` from rank `me`, the sum of
absolute coordinate deltas over all dims (yk_var_apis.cpp lines 596-601). -/
def manDist (D : Nat) (coords : Nat → Nat → Int) (me rn : Nat) : Int :=
  ((List.range D).map (fun d => |rdelta coords me rn d|)).sum

/-- `_opts->_num_ranks.product()` (yk_var_apis.cpp line 537). -/
def numRanksProduct (D : Nat) (nranks : Nat → Int) : Int :=
  (List.range D).foldl (fun acc d => acc * nranks d) 1

/-- Error kinds thrown by the two layout checks of `setupRank`. -/
inductive RankErr where
  | badRankLayout : RankErr
  | internalErr : RankErr
deriving DecidableEq

/-- The coordinate checks in the all-ranks loop of `setupRank`
(yk_var_apis.cpp lines 584-616): distance to own rank must be 0
("Internal error"), distance to any other rank must be nonzero
("at same coordinates"). -/
def rankLoopChecks (D : Nat) (coords : Nat → Nat → Int) (me : Nat) :
    List Nat → Except RankErr Unit
  | [] => .ok ()
  | rn :: rest =>
    if rn = me then
      if manDist D coords me rn ≠ 0 then .error .internalErr
      else rankLoopChecks D coords me rest
    else
      if manDist D coords me rn = 0 then .error .badRankLayout
      else rankLoopChecks D coords me rest

/-- The two layout checks of `setupRank` run on rank `me`: the rank-count
product check (yk_var_apis.cpp lines 536-542) followed by the
coordinate-collision check over all ranks (lines 603-616). -/
def setup_rank_checks (n D : Nat) (coords : Nat → Nat → Int)
    (nranks : Nat → Int) (me : Nat) : Except RankErr Unit :=
  if numRanksProduct D nranks ≠ (n : Int) then .error .badRankLayout
  else rankLoopChecks D coords me (List.range n)

/-- Sum of nonnegative-term lists is zero iff each term is zero. -/
theorem sum_abs_eq_zero {l : List Nat} {f : Nat → Int} :
    (l.map (fun d => |f d|)).sum = 0 ↔ ∀ d ∈ l, f d = 0 := by
  induction l with
  | nil => simp
  | cons a t ih =>
    simp only [List.map_cons, List.sum_cons, List.mem_cons]
    constructor
    · intro h
      have ha : 0 ≤ |f a| := abs_nonneg _
      have ht : 0 ≤ (t.map (fun d => |f d|)).sum :=
        List.sum_nonneg (fun x hx => by
          obtain ⟨d, _, rfl⟩ := List.mem_map.mp hx
          exact abs_nonneg _)
      have h1 : |f a| = 0 := by omega
      have h2 : (t.map (fun d => |f d|)).sum = 0 := by omega
      rintro d (rfl | hd)
      · exact abs_eq_zero.mp h1
      · exact (ih.mp h2) d hd
    · intro h
      have h1 : |f a| = 0 := abs_eq_zero.mpr (h a (Or.inl rfl))
      have h2 : (t.map (fun d => |f d|)).sum = 0 :=
        ih.mpr (fun d hd => h d (Or.inr hd))
      omega

/-- Manhattan distance is zero iff the two ranks have identical
coordinates in every dim. -/
theorem manDist_eq_zero (D : Nat) (coords : Nat → Nat → Int) (me rn : Nat) :
    manDist D coords me rn = 0 ↔ ∀ d < D, coords rn d = coords me d := by
  unfold manDist
  rw [sum_abs_eq_zero]
  constructor
  · intro h d hd
    have := h d (List.mem_range.mpr hd)
    unfold rdelta at this
    omega
  · intro h d hd
    have := h d (List.mem_range.mp hd)
    unfold rdelta
    omega

/-- A rank is at distance zero from itself. -/
theorem manDist_self (D : Nat) (coords : Nat → Nat → Int) (me : Nat) :
    manDist D coords me me = 0 :=
  (manDist_eq_zero D coords me me).mpr (fun _ _ => rfl)

/-- The rank loop passes iff no visited rank other than `me` is at
distance zero from `me`. -/
theorem rankLoopChecks_ok (D : Nat) (coords : Nat → Nat → Int) (me : Nat)
    (l : List Nat) :
    rankLoopChecks D coords me l = .ok () ↔
      ∀ rn ∈ l, rn ≠ me → manDist D coords me rn ≠ 0 := by
  induction l with
  | nil => simp [rankLoopChecks]
  | cons a t ih =>
    unfold rankLoopChecks
    by_cases ha : a = me
    · subst ha
      rw [if_pos rfl, if_neg (by rw [manDist_self]; exact not_not_intro rfl),
        ih]
      constructor
      · intro h rn hrn hne
        rcases List.mem_cons.mp hrn with rfl | hmem
        · exact absurd rfl hne
        · exact h rn hmem hne
      · intro h rn hrn hne
        exact h rn (List.mem_cons_of_mem _ hrn) hne
    · rw [if_neg ha]
      by_cases hd : manDist D coords me a = 0
      · rw [if_pos hd]
        refine iff_of_false (fun h => Except.noConfusion h) ?_
        intro h
        exact h a (List.mem_cons_self a t) ha hd
      · rw [if_neg hd, ih]
        constructor
        · intro h rn hrn hne
          rcases List.mem_cons.mp hrn with rfl | hmem
          · exact hd
          · exact h rn hmem hne
        · intro h rn hrn hne
          exact h rn (List.mem_cons_of_mem _ hrn) hne

end SetupRank

/-- C6: with `n` active MPI ranks (`n > 0`), the two layout checks of
`setup_rank` pass on every rank iff the product of the requested ranks
per dim equals `n` and no two distinct ranks have identical coordinate
tuples; a rank-count mismatch or a coordinate collision makes some rank
throw. -/
theorem C6_setup_rank_checks (n D : Nat) (coords : Nat → Nat → Int)
    (nranks : Nat → Int) (hn : 0 < n) :
    (∀ me < n, SetupRank.setup_rank_checks n D coords nranks me
        = .ok ()) ↔
      (SetupRank.numRanksProduct D nranks = (n : Int) ∧
       ∀ i < n, ∀ j < n, i ≠ j → ∃ d < D, coords i d ≠ coords j d) := by
  unfold SetupRank.setup_rank_checks
  constructor
  · intro h
    have h0 := h 0 hn
    have hprod : SetupRank.numRanksProduct D nranks = (n : Int) := by
      by_contra hne
      rw [if_pos hne] at h0
      exact Except.noConfusion h0
    refine ⟨hprod, ?_⟩
    intro i hi j hj hij
    have hli := h i hi
    rw [if_neg (not_not_intro hprod)] at hli
    have := (SetupRank.rankLoopChecks_ok D coords i (List.range n)).mp hli
      j (List.mem_range.mpr hj) (Ne.symm hij)
    rw [Ne, SetupRank.manDist_eq_zero] at this
    push_neg at this
    obtain ⟨d, hd, hne⟩ := this
    exact ⟨d, hd, hne.symm⟩
  · rintro ⟨hprod, hcoll⟩ me hme
    rw [if_neg (not_not_intro hprod)]
    rw [SetupRank.rankLoopChecks_ok]
    intro rn hrn hne
    rw [Ne, SetupRank.manDist_eq_zero]
    push_neg
    obtain ⟨d, hd, hs⟩ :=
      hcoll rn (List.mem_range.mp hrn) me hme hne
    exact ⟨d, hd, hs⟩

/-- C6 witness: two ranks on a 1-D layout `nranks = [2]` at coordinates
0 and 1; both checks pass on both ranks. -/
theorem C6_setup_rank_checks_witness :
    0 < 2 ∧
    (∀ me < 2, SetupRank.setup_rank_checks 2 1
        (fun rn _ => (rn : Int)) (fun _ => 2) me = .ok ()) := by
  refine ⟨by decide, ?_⟩
  rw [C6_setup_rank_checks 2 1 (fun rn _ => (rn : Int)) (fun _ => 2)
    (by decide)]
  refine ⟨by decide, ?_⟩
  decide

namespace SetupRank

/-- `is_inline`: rank `rn` is in-line with rank `me` in dim `d` when its
coordinate deltas in every other dim are zero (yk_var_apis.cpp
lines 622-630). -/
def isInline (D : Nat) (coords : Nat → Nat → Int) (me rn d : Nat) : Bool :=
  decide (∀ j < D, j ≠ d → rdelta coords me rn j = 0)

/-- `overall_domain_sizes[d]` as computed by `setupRank`: initialized to
this rank's own size (yk_var_apis.cpp lines 566-571), then accumulated
over in-line ranks other than `me` in the all-ranks loop (lines 633-638). -/
def overall_domain (n D : Nat) (coords sizes : Nat → Nat → Int)
    (me d : Nat) : Int :=
  (List.range n).foldl
    (fun acc rn =>
      if rn ≠ me ∧ isInline D coords me rn d then acc + sizes rn d else acc)
    (sizes me d)

/-- `rank_domain_offsets[d]` as computed by `setupRank`: initialized to
zero (yk_var_apis.cpp line 555), then accumulated over in-line ranks with
negative coordinate delta in dim `d` (lines 640-643). -/
def rank_domain_offset (n D : Nat) (coords sizes : Nat → Nat → Int)
    (me d : Nat) : Int :=
  (List.range n).foldl
    (fun acc rn =>
      if isInline D coords me rn d ∧ rdelta coords me rn d < 0 then
        acc + sizes rn d
      else acc)
    0

/-- The claim's description of `overall_domain[d]`: the sum of the domain
sizes in `d` of all ranks (including this rank) whose coordinates agree
with this rank's in every dim other than `d`. -/
def overall_domain_claim (n D : Nat) (coords sizes : Nat → Nat → Int)
    (me d : Nat) : Int :=
  ((List.range n).map
    (fun rn =>
      if (∀ j < D, j ≠ d → coords rn j = coords me j) then sizes rn d
      else 0)).sum

/-- The claim's description of `rank_domain_offset[d]`: the sum of the
domain sizes in `d` of the in-line ranks whose coordinate in `d` is
strictly smaller than this rank's. -/
def rank_domain_offset_claim (n D : Nat) (coords sizes : Nat → Nat → Int)
    (me d : Nat) : Int :=
  ((List.range n).map
    (fun rn =>
      if (∀ j < D, j ≠ d → coords rn j = coords me j)
          ∧ coords rn d < coords me d then sizes rn d
      else 0)).sum

/-- A conditional-accumulation loop is the sum of its conditional terms. -/
theorem foldl_if_add (p : Nat → Prop) [DecidablePred p] (f : Nat → Int)
    (l : List Nat) (init : Int) :
    l.foldl (fun acc rn => if p rn then acc + f rn else acc) init
      = init + (l.map (fun rn => if p rn then f rn else 0)).sum := by
  induction l generalizing init with
  | nil => simp
  | cons a t ih =>
    simp only [List.foldl_cons, List.map_cons, List.sum_cons]
    by_cases ha : p a
    · rw [if_pos ha, if_pos ha, ih]
      ring
    · rw [if_neg ha, if_neg ha, ih]
      ring

/-- Splitting the term of a distinguished member out of a conditional sum:
on a duplicate-free list containing `me`, with `q me` true. -/
theorem sum_if_split_me (q : Nat → Prop) [DecidablePred q] (f : Nat → Int)
    (me : Nat) (l : List Nat) (hnd : l.Nodup) (hme : me ∈ l)
    (hq : q me) :
    (l.map (fun rn => if q rn then f rn else 0)).sum
      = f me + (l.map (fun rn => if rn ≠ me ∧ q rn then f rn else 0)).sum := by
  induction l with
  | nil => cases hme
  | cons a t ih =>
    simp only [List.map_cons, List.sum_cons]
    rcases List.mem_cons.mp hme with rfl | hmem
    · rw [if_pos hq, if_neg (fun hc => hc.1 rfl)]
      have hnotin : me ∉ t := (List.nodup_cons.mp hnd).1
      have : (t.map (fun rn => if q rn then f rn else 0))
          = t.map (fun rn => if rn ≠ me ∧ q rn then f rn else 0) := by
        apply List.map_congr_left
        intro rn hrn
        have hne : rn ≠ me := fun hc => hnotin (hc ▸ hrn)
        by_cases hqr : q rn
        · rw [if_pos hqr, if_pos ⟨hne, hqr⟩]
        · rw [if_neg hqr, if_neg (fun hc => hqr hc.2)]
      rw [this]
      ring
    · have hane : a ≠ me := fun hc => (List.nodup_cons.mp hnd).1 (hc ▸ hmem)
      rw [ih (List.nodup_cons.mp hnd).2 hmem]
      have : (if q a then f a else 0) = (if a ≠ me ∧ q a then f a else 0) := by
        by_cases hqa : q a
        · rw [if_pos hqa, if_pos ⟨hane, hqa⟩]
        · rw [if_neg hqa, if_neg (fun hc => hqa hc.2)]
      rw [this]
      ring

end SetupRank

/-- `is_inline` holds exactly when the coordinates agree in every dim
other than `d`. -/
theorem isInline_iff (D : Nat) (coords : Nat → Nat → Int) (me rn d : Nat) :
    SetupRank.isInline D coords me rn d = true ↔
      ∀ j < D, j ≠ d → coords rn j = coords me j := by
  unfold SetupRank.isInline
  rw [decide_eq_true_eq]
  constructor
  · intro h j hj hjd
    have := h j hj hjd
    unfold SetupRank.rdelta at this
    omega
  · intro h j hj hjd
    have := h j hj hjd
    unfold SetupRank.rdelta
    omega

/-- C5: after `setup_rank` succeeds on rank `me < n`, for every domain dim
`d` the accumulated `overall_domain[d]` is the sum of the domain sizes of
all ranks (including `me`) in-line with `me` in dim `d`, and
`rank_domain_offset[d]` is the sum of the domain sizes of the in-line
ranks with strictly smaller coordinate in `d`. -/
theorem C5_rank_decomposition (n D : Nat) (coords sizes : Nat → Nat → Int)
    (me d : Nat) (hme : me < n) :
    SetupRank.overall_domain n D coords sizes me d
      = SetupRank.overall_domain_claim n D coords sizes me d ∧
    SetupRank.rank_domain_offset n D coords sizes me d
      = SetupRank.rank_domain_offset_claim n D coords sizes me d := by
  constructor
  · unfold SetupRank.overall_domain SetupRank.overall_domain_claim
    rw [SetupRank.foldl_if_add
      (fun rn => rn ≠ me ∧ SetupRank.isInline D coords me rn d = true)
      (fun rn => sizes rn d)]
    rw [SetupRank.sum_if_split_me
      (fun rn => ∀ j < D, j ≠ d → coords rn j = coords me j)
      (fun rn => sizes rn d) me (List.range n) (List.nodup_range n)
      (List.mem_range.mpr hme) (fun _ _ _ => rfl)]
    congr 1
    congr 1
    apply List.map_congr_left
    intro rn _
    apply if_congr _ rfl rfl
    rw [and_congr_right_iff]
    intro _
    exact isInline_iff D coords me rn d
  · unfold SetupRank.rank_domain_offset SetupRank.rank_domain_offset_claim
    rw [SetupRank.foldl_if_add
      (fun rn => SetupRank.isInline D coords me rn d = true
        ∧ SetupRank.rdelta coords me rn d < 0)
      (fun rn => sizes rn d), zero_add]
    congr 1
    apply List.map_congr_left
    intro rn _
    apply if_congr _ rfl rfl
    apply and_congr (isInline_iff D coords me rn d)
    unfold SetupRank.rdelta
    omega

/-- C5 witness: three ranks in a line (`coords rn 0 = rn`, sizes 10, 20,
30); for rank 1 the overall domain is 60 and the offset 10. -/
theorem C5_rank_decomposition_witness :
    1 < 3 ∧
    SetupRank.overall_domain 3 1 (fun rn _ => (rn : Int))
        (fun rn _ => 10 * ((rn : Int) + 1)) 1 0
      = SetupRank.overall_domain_claim 3 1 (fun rn _ => (rn : Int))
          (fun rn _ => 10 * ((rn : Int) + 1)) 1 0 ∧
    SetupRank.rank_domain_offset 3 1 (fun rn _ => (rn : Int))
        (fun rn _ => 10 * ((rn : Int) + 1)) 1 0
      = SetupRank.rank_domain_offset_claim 3 1 (fun rn _ => (rn : Int))
          (fun rn _ => 10 * ((rn : Int) + 1)) 1 0 := by
  have h := C5_rank_decomposition 3 1 (fun rn _ => (rn : Int))
    (fun rn _ => 10 * ((rn : Int) + 1)) 1 0 (by decide)
  exact ⟨by decide, h.1, h.2⟩

/-! ## C10: `YkVarImpl::set_element` / `add_to_element`
(yk_var_apis.cpp lines 267-327) -/

/-- Storage of a var, abstracted as a total map from index tuples to
element values. -/
def Store := List Int → Int

/-- State of a var as used by the element APIs: optional storage, the
index-validity predicate (with a flag saying whether the step index is
range-checked), the position of the step dim among the indices, the step
allocation, and the per-slot dirty flags. -/
structure ElemVar where
  storage : Option Store
  valid : List Int → Bool → Bool
  stepPosn : Option Nat
  allocStep : Int
  dirty : Int → Bool

/-- Modelled from the spec: `YkVarBase::check_indices` (declared in
yk_var.hpp, which is not under src/) validates that the indices lie in
the var's allowed range; when they do not, it throws if `strict_indices`
is set and otherwise reports `false`. -/
def check_indices (v : ElemVar) (indices : List Int)
    (strict checkStep : Bool) : Except Unit Bool :=
  if v.valid indices checkStep then .ok true
  else if strict then .error ()
  else .ok false

/-- Modelled from the spec: `get_alloc_step_index` (yk_var.hpp, not under
src/) maps the step index `t` to its cyclic storage slot `t mod
alloc_step` ("for stepped vars, index `t` maps to storage slot `t mod
alloc_step`"); 0 for vars without a step dim. -/
def get_alloc_step_index (v : ElemVar) (indices : List Int) : Int :=
  match v.stepPosn with
  | some p => Int.emod (indices.getD p 0) v.allocStep
  | none => 0

/-- Modelled from the spec: `write_elem` (yk_var.hpp, not under src/)
updates exactly one element of storage. -/
def write_elem (st : Store) (pt : List Int) (val : Int) : Store :=
  fun q => if q = pt then val else st q

/-- Modelled from the spec: `set_dirty_using_alloc_index` (yk_var.hpp,
not under src/) sets the dirty bit of one step slot. -/
def set_dirty_alloc (d : Int → Bool) (asi : Int) (b : Bool) :
    Int → Bool :=
  fun t => if t = asi then b else d t

/-- `YkVarImpl::set_element` (yk_var_apis.cpp lines 267-297): throw when
no storage is allocated and `strict_indices` is set; then, if storage is
present and the index check (step index not checked) passes, write the
element, mark the slot's dirty flag, and count one update; return the
update count. -/
def set_element (v : ElemVar) (val : Int) (indices : List Int)
    (strict : Bool) : Except Unit (Int × ElemVar) :=
  match v.storage with
  | none => if strict then .error () else .ok (0, v)
  | some st =>
    match check_indices v indices strict false with
    | .error e => .error e
    | .ok true =>
      let asi := get_alloc_step_index v indices
      .ok (1, { v with
        storage := some (write_elem st indices val),
        dirty := set_dirty_alloc v.dirty asi true })
    | .ok false => .ok (0, v)

/-- `YkVarImpl::add_to_element` (yk_var_apis.cpp lines 298-327): same
shape as `set_element` but the index check includes the step index
(because this API reads before writing) and the write is a
read-modify-write. -/
def add_to_element (v : ElemVar) (val : Int) (indices : List Int)
    (strict : Bool) : Except Unit (Int × ElemVar) :=
  match v.storage with
  | none => if strict then .error () else .ok (0, v)
  | some st =>
    match check_indices v indices strict true with
    | .error e => .error e
    | .ok true =>
      let asi := get_alloc_step_index v indices
      .ok (1, { v with
        storage := some (write_elem st indices (st indices + val)),
        dirty := set_dirty_alloc v.dirty asi true })
    | .ok false => .ok (0, v)

/-- C10: with no allocated storage, `set_element` and `add_to_element`
throw exactly when `strict_indices` is set and otherwise return 0 leaving
the var (including its dirty flags) unchanged; with storage allocated and
a passing index check they perform exactly one write (read-modify-write
for `add_to_element`), set the dirty flag of the computed allocation-step
index, leave every other point and every other dirty slot unchanged, and
return 1. -/
theorem C10_element_apis (v : ElemVar) (val : Int) (indices : List Int) :
    (v.storage = none →
      set_element v val indices true = .error () ∧
      add_to_element v val indices true = .error () ∧
      set_element v val indices false = .ok (0, v) ∧
      add_to_element v val indices false = .ok (0, v)) ∧
    (∀ st, v.storage = some st →
      (∀ strict, v.valid indices false = true →
        ∃ v2, set_element v val indices strict = .ok (1, v2) ∧
          (∀ st2, v2.storage = some st2 →
            st2 indices = val ∧ ∀ q, q ≠ indices → st2 q = st q) ∧
          v2.dirty (get_alloc_step_index v indices) = true ∧
          (∀ t, t ≠ get_alloc_step_index v indices →
            v2.dirty t = v.dirty t)) ∧
      (∀ strict, v.valid indices true = true →
        ∃ v2, add_to_element v val indices strict = .ok (1, v2) ∧
          (∀ st2, v2.storage = some st2 →
            st2 indices = st indices + val ∧
            ∀ q, q ≠ indices → st2 q = st q) ∧
          v2.dirty (get_alloc_step_index v indices) = true ∧
          (∀ t, t ≠ get_alloc_step_index v indices →
            v2.dirty t = v.dirty t))) := by
  constructor
  · intro hnone
    refine ⟨?_, ?_, ?_, ?_⟩ <;>
      simp [set_element, add_to_element, hnone]
  · intro st hsome
    constructor
    · intro strict hvalid
      refine ⟨{ v with
          storage := some (write_elem st indices val),
          dirty := set_dirty_alloc v.dirty (get_alloc_step_index v indices)
            true }, ?_, ?_, ?_, ?_⟩
      · simp [set_element, hsome, check_indices, hvalid]
      · intro st2 hst2
        simp only [Option.some.injEq] at hst2
        subst hst2
        refine ⟨by simp [write_elem], ?_⟩
        intro q hq
        simp [write_elem, hq]
      · simp [set_dirty_alloc]
      · intro t ht
        simp [set_dirty_alloc, ht]
    · intro strict hvalid
      refine ⟨{ v with
          storage := some (write_elem st indices (st indices + val)),
          dirty := set_dirty_alloc v.dirty (get_alloc_step_index v indices)
            true }, ?_, ?_, ?_, ?_⟩
      · simp [add_to_element, hsome, check_indices, hvalid]
      · intro st2 hst2
        simp only [Option.some.injEq] at hst2
        subst hst2
        refine ⟨by simp [write_elem], ?_⟩
        intro q hq
        simp [write_elem, hq]
      · simp [set_dirty_alloc]
      · intro t ht
        simp [set_dirty_alloc, ht]

/-- A concrete var with storage, a 3-slot step allocation and everything
in range, for the C10 witness. -/
def elemVar0 : ElemVar where
  storage := some (fun _ => 0)
  valid := fun _ _ => true
  stepPosn := some 0
  allocStep := 3
  dirty := fun _ => false

/-- C10 witness: on `elemVar0`, `set_element 5 [4] strict` succeeds with
one update and marks slot `4 mod 3 = 1` dirty. -/
theorem C10_element_apis_witness :
    elemVar0.storage = some (fun _ => 0) ∧
    elemVar0.valid [4] false = true ∧
    ∃ v2, set_element elemVar0 5 [4] true = .ok (1, v2) ∧
      v2.dirty (get_alloc_step_index elemVar0 [4]) = true := by
  have h := (((C10_element_apis elemVar0 5 [4]).2 (fun _ => 0) rfl).1)
    true rfl
  obtain ⟨v2, h1, _, h3, _⟩ := h
  exact ⟨rfl, rfl, v2, h1, h3⟩

/-! ## C8: `get_elements_in_slice` / `set_elements_in_slice` round trip
(yk_var_apis.cpp lines 330-399) -/

/-- Modelled from the spec: the point-visit order used by
`_visit_elements_in_slice` (yk_var.hpp, not under src/): the axis-aligned
range `[first, last]` (inclusive per dim) is enumerated in deterministic
row-major order, first dim outermost. -/
def slice_points : List Int → List Int → List (List Int)
  | [], [] => [[]]
  | f :: fs, l :: ls =>
    ((List.range (l - f + 1).toNat).map (fun k : Nat => f + (k : Int))).flatMap
      (fun x => (slice_points fs ls).map (fun pt => x :: pt))
  | _, _ => []

/-- `YkVarBase::set_elements_in_slice` (yk_var_apis.cpp lines 364-399):
the `SetElem` visitor writes buffer element `pofs` to the var at each
visited point, the buffer offset advancing in visit order. -/
def set_elements_in_slice (buf : List Int) :
    Nat → List (List Int) → Store → Store
  | _, [], st => st
  | i, pt :: pts, st =>
    set_elements_in_slice buf (i + 1) pts (write_elem st pt (buf.getD i 0))

/-- `YkVarBase::get_elements_in_slice` (yk_var_apis.cpp lines 330-361):
the `GetElem` visitor reads the var at each visited point into the buffer
in visit order. -/
def get_elements_in_slice (st : Store) (pts : List (List Int)) :
    List Int := pts.map st

/-- Points not on the visit list are untouched by the slice write. -/
theorem set_elements_in_slice_other (buf : List Int) (q : List Int) :
    ∀ (pts : List (List Int)) (i : Nat) (st : Store), q ∉ pts →
      set_elements_in_slice buf i pts st q = st q := by
  intro pts
  induction pts with
  | nil => intro i st _; rfl
  | cons pt t ih =>
    intro i st hq
    have hqpt : q ≠ pt := fun hc => hq (hc ▸ List.mem_cons_self pt t)
    have hqt : q ∉ t := fun hc => hq (List.mem_cons_of_mem _ hc)
    unfold set_elements_in_slice
    rw [ih (i + 1) _ hqt]
    simp [write_elem, hqpt]

/-- Reading back a duplicate-free visit list after writing it returns the
written buffer values in order. -/
theorem get_set_elements (buf : List Int) :
    ∀ (pts : List (List Int)), pts.Nodup → ∀ (i : Nat) (st : Store),
      get_elements_in_slice (set_elements_in_slice buf i pts st) pts
        = (List.range pts.length).map (fun k => buf.getD (i + k) 0) := by
  intro pts
  induction pts with
  | nil => intro _ i st; rfl
  | cons pt t ih =>
    intro hnd i st
    have hpt : pt ∉ t := (List.nodup_cons.mp hnd).1
    have hndt : t.Nodup := (List.nodup_cons.mp hnd).2
    unfold set_elements_in_slice get_elements_in_slice
    simp only [List.map_cons, List.length_cons, List.range_succ_eq_map,
      List.map_map]
    congr 1
    · rw [set_elements_in_slice_other buf pt t (i + 1) _ hpt]
      simp [write_elem]
    · have := ih hndt (i + 1) (write_elem st pt (buf.getD i 0))
      unfold get_elements_in_slice at this
      rw [this]
      apply List.map_congr_left
      intro k _
      simp only [Function.comp_apply]
      congr 1
      omega

/-- The row-major enumeration of an axis-aligned slice has no duplicate
points. -/
theorem slice_points_nodup : ∀ (f l : List Int), (slice_points f l).Nodup
  | [], [] => by simp [slice_points]
  | [], _ :: _ => by simp [slice_points]
  | _ :: _, [] => by simp [slice_points]
  | f :: fs, l :: ls => by
    unfold slice_points
    rw [List.nodup_flatMap]
    constructor
    · intro x _
      exact (slice_points_nodup fs ls).map
        (fun a b hab => by injection hab)
    · have hinj : Function.Injective (fun k : Nat => f + (k : Int)) := by
        intro a b hab
        simp only at hab
        omega
      refine ((List.nodup_range _).map hinj).imp ?_
      intro x y hxy
      intro s hsx hsy
      obtain ⟨px, _, rfl⟩ := List.mem_map.mp hsx
      obtain ⟨py, _, hpy⟩ := List.mem_map.mp hsy
      exact hxy (List.cons_eq_cons.mp hpy.symm).1

/-- Prefix-closed form of reading a buffer back by positions. -/
theorem map_getD_range (buf : List Int) :
    (List.range buf.length).map (fun k => buf.getD k 0) = buf := by
  induction buf with
  | nil => rfl
  | cons a t ih =>
    simp only [List.length_cons, List.range_succ_eq_map, List.map_cons,
      List.map_map]
    congr 1

/-- C8: writing a buffer of exactly the slice's size with
`set_elements_in_slice` and reading it back with
`get_elements_in_slice` over the same `[first, last]` range returns the
buffer element-for-element, because both visit the slice in the same
deterministic row-major order. -/
theorem C8_slice_round_trip (first last buf : List Int) (st : Store)
    (hlen : buf.length = (slice_points first last).length) :
    get_elements_in_slice
      (set_elements_in_slice buf 0 (slice_points first last) st)
      (slice_points first last) = buf := by
  rw [get_set_elements buf (slice_points first last)
    (slice_points_nodup first last) 0 st]
  simp only [Nat.zero_add]
  rw [← hlen]
  exact map_getD_range buf

/-- C8 witness: the 2x2 slice `[0,0] .. [1,1]` with buffer
`[10, 20, 30, 40]` over an all-zero var. -/
theorem C8_slice_round_trip_witness :
    ([10, 20, 30, 40] : List Int).length
      = (slice_points [0, 0] [1, 1]).length ∧
    get_elements_in_slice
      (set_elements_in_slice [10, 20, 30, 40] 0
        (slice_points [0, 0] [1, 1]) (fun _ => 0))
      (slice_points [0, 0] [1, 1]) = [10, 20, 30, 40] := by
  refine ⟨by rfl, ?_⟩
  exact C8_slice_round_trip [0, 0] [1, 1] [10, 20, 30, 40]
    (fun _ => 0) (by rfl)

/-! ## C7/C2/C9: the compiler-side `Var` halo maps (src/unnamed/part_001)

`_halos` is `map<string stage, map<bool left, map<int step_offset,
IntTuple>>>`; the `std::map` levels are modelled as association lists
with first-occurrence lookup and update-or-append store, which agrees
with `std::map` on every state reachable through them. -/

namespace Halo

/-- An `IntTuple`: an insertion-ordered association of dim names to
values. -/
abbrev Tuple := List (String × Int)

/-- `IntTuple::lookup`: pointer to the first entry with this name. -/
def tlookup : Tuple → String → Option Int
  | [], _ => none
  | p :: t, n => if p.1 == n then some p.2 else tlookup t n

/-- Writing through the pointer returned by `lookup` (`*p = val`):
update the first entry with the given name. -/
def tupdate : Tuple → String → Int → Tuple
  | [], _, _ => []
  | p :: t, n, v => if p.1 == n then (n, v) :: t else p :: tupdate t n v

/-- Association-list lookup (first occurrence), the read side of the
`std::map` levels of `_halos`. -/
def alGet {α β : Type} [BEq α] : List (α × β) → α → Option β
  | [], _ => none
  | p :: t, k => if p.1 == k then some p.2 else alGet t k

/-- Association-list store: update the first occurrence or append, the
effect of assigning through `std::map::operator[]`. -/
def alSet {α β : Type} [BEq α] : List (α × β) → α → β → List (α × β)
  | [], k, v => [(k, v)]
  | p :: t, k, v => if p.1 == k then (k, v) :: t else p :: alSet t k v

/-- The step-offset level of `_halos`. -/
abbrev SideMap := List (Int × Tuple)

/-- The left/right level of `_halos`. -/
abbrev StageMap := List (Bool × SideMap)

/-- The `_halos` member of a `Var`. -/
abbrev Halos := List (String × StageMap)

/-- Read `_halos[stage][left][step]` without creating entries. -/
def halosGet (h : Halos) (st : String) (l : Bool) (s : Int) :
    Option Tuple :=
  (alGet h st).bind fun m2 => (alGet m2 l).bind fun m3 => alGet m3 s

/-- Write `_halos[stage][left][step] = tup`, creating the intermediate
levels exactly as chained `operator[]` does. -/
def halosPut (h : Halos) (st : String) (l : Bool) (s : Int)
    (tup : Tuple) : Halos :=
  let m2 := (alGet h st).getD []
  let m3 := (alGet m2 l).getD []
  alSet h st (alSet m2 l (alSet m3 s tup))

/-- The stored halo value at `(stage, side, step-offset, dim)`. -/
def hval (h : Halos) (st : String) (l : Bool) (s : Int) (dn : String) :
    Option Int :=
  (halosGet h st l s).bind fun t => tlookup t dn

/-- One iteration of the offsets loop of `Var::update_halo(stage,
offsets)` (part_001 lines 287-320), acting on the `(halos, changed)`
pair.  The `auto& halos = _halos[stage_name][left][step_val]` reference
is taken *before* the step-dim `continue`, so the (possibly empty) entry
is created even when the dim is the step dim. -/
def uhStep (stepDim : Option String) (stage : String) (stepVal : Int)
    (acc : Halos × Bool) (dim : String × Int) : Halos × Bool :=
  let h := acc.1
  let changed := acc.2
  let left : Bool := decide (dim.2 ≤ 0)
  let tup := (halosGet h stage left stepVal).getD []
  if stepDim = some dim.1 then
    (halosPut h stage left stepVal tup, changed)
  else
    let v := |dim.2|
    match tlookup tup dim.1 with
    | none =>
      (halosPut h stage left stepVal (tup ++ [(dim.1, v)]), true)
    | some p =>
      if p < v then
        (halosPut h stage left stepVal (tupdate tup dim.1 v), true)
      else
        (halosPut h stage left stepVal tup, changed)

/-- The step offset used by `update_halo`: the offsets' entry for the
step dim, or 0 when there is none (part_001 lines 274-281). -/
def uhStepVal (stepDim : Option String) (offsets : Tuple) : Int :=
  match stepDim with
  | some sd => (tlookup offsets sd).getD 0
  | none => 0

/-- `Var::update_halo(stage_name, offsets)` (part_001 lines 271-326):
fold the per-dim update over the offsets in order, starting from
`changed = false`.  The `_l1_dist` update does not touch `_halos` or the
return value and is not modelled. -/
def update_halo (stepDim : Option String) (h : Halos) (stage : String)
    (offsets : Tuple) : Halos × Bool :=
  offsets.foldl (uhStep stepDim stage (uhStepVal stepDim offsets)) (h, false)

/-- Combining a new absolute offset with an existing halo value. -/
def maxCombine : Option Int → Int → Int
  | none, v => v
  | some p, v => max p v

/-- Whether processing `dim` would add or increase a halo entry of `h`. -/
def increases (h : Halos) (stage : String) (stepVal : Int)
    (dim : String × Int) : Prop :=
  hval h stage (decide (dim.2 ≤ 0)) stepVal dim.1 = none ∨
    ∃ p, hval h stage (decide (dim.2 ≤ 0)) stepVal dim.1 = some p
      ∧ p < |dim.2|

instance (h : Halos) (stage : String) (stepVal : Int)
    (dim : String × Int) : Decidable (increases h stage stepVal dim) := by
  unfold increases
  cases hv : hval h stage (decide (dim.2 ≤ 0)) stepVal dim.1 with
  | none => exact .isTrue (Or.inl rfl)
  | some p =>
    by_cases hp : p < |dim.2|
    · exact .isTrue (Or.inr ⟨p, rfl, hp⟩)
    · refine .isFalse ?_
      rintro (hc | ⟨q, hq, hlt⟩)
      · exact Option.noConfusion hc
      · cases hq
        exact hp hlt

end Halo

namespace Halo

theorem alGet_alSet_same {α β : Type} [BEq α] [LawfulBEq α]
    (m : List (α × β)) (k : α) (v : β) :
    alGet (alSet m k v) k = some v := by
  induction m with
  | nil => simp [alSet, alGet]
  | cons p t ih =>
    cases hp : (p.1 == k) with
    | true => simp [alSet, alGet, hp]
    | false => simp [alSet, alGet, hp, ih]

theorem alGet_alSet_other {α β : Type} [BEq α] [LawfulBEq α]
    (m : List (α × β)) (k k2 : α) (v : β) (hne : k2 ≠ k) :
    alGet (alSet m k v) k2 = alGet m k2 := by
  have hkk : (k == k2) = false := by
    rw [beq_eq_false_iff_ne]
    exact fun hc => hne hc.symm
  induction m with
  | nil => simp [alSet, alGet, hkk]
  | cons p t ih =>
    cases hp : (p.1 == k) with
    | true =>
      have hpk : p.1 = k := eq_of_beq hp
      simp [alSet, alGet, hp, hpk, hkk]
    | false =>
      cases hp2 : (p.1 == k2) with
      | true => simp [alSet, alGet, hp, hp2]
      | false => simp [alSet, alGet, hp, hp2, ih]

theorem tlookup_append_self (t : Tuple) (n : String) (v : Int)
    (hn : tlookup t n = none) : tlookup (t ++ [(n, v)]) n = some v := by
  induction t with
  | nil => simp [tlookup]
  | cons p s ih =>
    rw [tlookup] at hn
    cases hp : (p.1 == n) with
    | true => rw [if_pos (by simp [hp])] at hn; exact Option.noConfusion hn
    | false =>
      rw [if_neg (by simp [hp])] at hn
      rw [List.cons_append, tlookup, if_neg (by simp [hp])]
      exact ih hn

theorem tlookup_append_other (t : Tuple) (n n2 : String) (v : Int)
    (hne : n2 ≠ n) : tlookup (t ++ [(n, v)]) n2 = tlookup t n2 := by
  induction t with
  | nil => simp [tlookup, show (n == n2) = false by
      rw [beq_eq_false_iff_ne]; exact fun hc => hne hc.symm]
  | cons p s ih =>
    rw [List.cons_append, tlookup, tlookup]
    cases hp : (p.1 == n2) with
    | true => simp
    | false => rw [if_neg (by simp [hp]), if_neg (by simp [hp])]; exact ih

theorem tlookup_tupdate_self (t : Tuple) (n : String) (v p : Int)
    (hn : tlookup t n = some p) : tlookup (tupdate t n v) n = some v := by
  induction t with
  | nil => exact Option.noConfusion hn
  | cons q s ih =>
    rw [tlookup] at hn
    rw [tupdate]
    cases hq : (q.1 == n) with
    | true => rw [if_pos (by simp [hq]), tlookup, if_pos (by simp)]
    | false =>
      rw [if_neg (by simp [hq])] at hn
      rw [if_neg (by simp [hq]), tlookup, if_neg (by simp [hq])]
      exact ih hn

theorem tlookup_tupdate_other (t : Tuple) (n n2 : String) (v : Int)
    (hne : n2 ≠ n) : tlookup (tupdate t n v) n2 = tlookup t n2 := by
  have hnn : (n == n2) = false := by
    rw [beq_eq_false_iff_ne]; exact fun hc => hne hc.symm
  induction t with
  | nil => simp [tupdate, tlookup]
  | cons q s ih =>
    rw [tupdate]
    cases hq : (q.1 == n) with
    | true =>
      rw [if_pos (by simp [hq]), tlookup, tlookup, if_neg (by simp [hnn])]
      have hqn : q.1 = n := eq_of_beq hq
      rw [if_neg (by simp [hqn, hnn])]
    | false =>
      rw [if_neg (by simp [hq]), tlookup, tlookup]
      cases hq2 : (q.1 == n2) with
      | true => simp
      | false => rw [if_neg (by simp [hq2]), if_neg (by simp [hq2])]; exact ih

end Halo

namespace Halo

theorem halosGet_put_same (h : Halos) (a : String) (b : Bool) (c : Int)
    (tup : Tuple) : halosGet (halosPut h a b c tup) a b c = some tup := by
  unfold halosPut halosGet
  rw [alGet_alSet_same, Option.some_bind, alGet_alSet_same,
    Option.some_bind, alGet_alSet_same]

theorem halosGet_put_other (h : Halos) (a : String) (b : Bool) (c : Int)
    (tup : Tuple) (a2 : String) (b2 : Bool) (c2 : Int)
    (hne : ¬(a2 = a ∧ b2 = b ∧ c2 = c)) :
    halosGet (halosPut h a b c tup) a2 b2 c2 = halosGet h a2 b2 c2 := by
  unfold halosPut halosGet
  by_cases ha : a2 = a
  case neg => rw [alGet_alSet_other _ _ _ _ ha]
  case pos =>
    subst ha
    rw [alGet_alSet_same, Option.some_bind]
    cases hh : alGet h a2 with
    | none =>
      simp only [hh, Option.getD_none, Option.none_bind]
      by_cases hb : b2 = b
      case neg => rw [alGet_alSet_other _ _ _ _ hb]; rfl
      case pos =>
        subst hb
        rw [alGet_alSet_same, Option.some_bind]
        have hc : c2 ≠ c := fun hcc => hne ⟨rfl, rfl, hcc⟩
        show alGet (alSet ((alGet ([] : StageMap) b2).getD []) c tup) c2
          = none
        rw [show alGet ([] : StageMap) b2 = none from rfl]
        rw [Option.getD_none, alGet_alSet_other _ _ _ _ hc]
        rfl
    | some m2 =>
      simp only [hh, Option.getD_some, Option.some_bind]
      by_cases hb : b2 = b
      case neg => rw [alGet_alSet_other _ _ _ _ hb]
      case pos =>
        subst hb
        rw [alGet_alSet_same, Option.some_bind]
        have hc : c2 ≠ c := fun hcc => hne ⟨rfl, rfl, hcc⟩
        cases hm : alGet m2 b2 with
        | none =>
          simp only [hm, Option.getD_none, Option.none_bind]
          rw [show alGet (alSet ([] : SideMap) c tup) c2 = alGet ([] : SideMap) c2
            from alGet_alSet_other _ _ _ _ hc]
          rfl
        | some m3 =>
          simp only [hm, Option.getD_some, Option.some_bind]
          exact alGet_alSet_other _ _ _ _ hc

/-- The tuple fetched through `getD []` reads back as `hval` does. -/
theorem tlookup_getD_hval (h : Halos) (a : String) (b : Bool) (c : Int)
    (dn : String) :
    tlookup ((halosGet h a b c).getD []) dn = hval h a b c dn := by
  unfold hval
  cases hg : halosGet h a b c with
  | none => simp [tlookup]
  | some t => simp

theorem hval_put (h : Halos) (a : String) (b : Bool) (c : Int)
    (tup : Tuple) (a2 : String) (b2 : Bool) (c2 : Int) (dn : String) :
    hval (halosPut h a b c tup) a2 b2 c2 dn
      = if a2 = a ∧ b2 = b ∧ c2 = c then tlookup tup dn
        else hval h a2 b2 c2 dn := by
  by_cases hco : a2 = a ∧ b2 = b ∧ c2 = c
  · obtain ⟨rfl, rfl, rfl⟩ := hco
    rw [if_pos ⟨rfl, rfl, rfl⟩]
    unfold hval
    rw [halosGet_put_same, Option.some_bind]
  · rw [if_neg hco]
    unfold hval
    rw [halosGet_put_other _ _ _ _ _ _ _ _ hco]

end Halo

namespace Halo

/-- Processing the step dim creates at most an empty map entry: every
stored value and the changed flag are unchanged. -/
theorem uhStep_stepdim (sd : Option String) (stage : String) (sv : Int)
    (acc : Halos × Bool) (dim : String × Int) (hsd : sd = some dim.1) :
    (uhStep sd stage sv acc dim).2 = acc.2 ∧
    ∀ a2 b2 c2 dn, hval (uhStep sd stage sv acc dim).1 a2 b2 c2 dn
      = hval acc.1 a2 b2 c2 dn := by
  unfold uhStep
  rw [if_pos hsd]
  refine ⟨rfl, ?_⟩
  intro a2 b2 c2 dn
  rw [hval_put]
  split
  · next hco =>
    obtain ⟨rfl, rfl, rfl⟩ := hco
    exact tlookup_getD_hval ..
  · rfl

/-- Processing a non-step dim: its own entry becomes the max of the old
value and the absolute offset, every other entry is unchanged, and the
changed flag picks up whether the entry was added or increased. -/
theorem uhStep_nonstep (sd : Option String) (stage : String) (sv : Int)
    (acc : Halos × Bool) (dim : String × Int) (hsd : ¬sd = some dim.1) :
    (hval (uhStep sd stage sv acc dim).1 stage (decide (dim.2 ≤ 0)) sv
        dim.1
      = some (maxCombine
          (hval acc.1 stage (decide (dim.2 ≤ 0)) sv dim.1) |dim.2|)) ∧
    (∀ a2 b2 c2 dn,
      ¬(a2 = stage ∧ b2 = decide (dim.2 ≤ 0) ∧ c2 = sv ∧ dn = dim.1) →
      hval (uhStep sd stage sv acc dim).1 a2 b2 c2 dn
        = hval acc.1 a2 b2 c2 dn) ∧
    ((uhStep sd stage sv acc dim).2
      = (acc.2 || decide (increases acc.1 stage sv dim))) := by
  have key := tlookup_getD_hval acc.1 stage (decide (dim.2 ≤ 0)) sv dim.1
  unfold uhStep
  rw [if_neg hsd]
  cases hv : hval acc.1 stage (decide (dim.2 ≤ 0)) sv dim.1 with
  | none =>
    rw [hv] at key
    simp only [key]
    refine ⟨?_, ?_, ?_⟩
    · rw [hval_put, if_pos ⟨rfl, rfl, rfl⟩,
        tlookup_append_self _ _ _ key]
      rfl
    · intro a2 b2 c2 dn hcn
      rw [hval_put]
      split
      · next hco =>
        obtain ⟨rfl, rfl, rfl⟩ := hco
        have hdn : dn ≠ dim.1 := fun hc => hcn ⟨rfl, rfl, rfl, hc⟩
        rw [tlookup_append_other _ _ _ _ hdn]
        exact tlookup_getD_hval ..
      · rfl
    · have : increases acc.1 stage sv dim := Or.inl hv
      simp [this]
  | some p =>
    rw [hv] at key
    simp only [key]
    by_cases hpv : p < |dim.2|
    · rw [if_pos hpv]
      refine ⟨?_, ?_, ?_⟩
      · rw [hval_put, if_pos ⟨rfl, rfl, rfl⟩,
          tlookup_tupdate_self _ _ _ _ key,
          show maxCombine (some p) |dim.2| = max p |dim.2| from rfl,
          max_eq_right (le_of_lt hpv)]
      · intro a2 b2 c2 dn hcn
        rw [hval_put]
        split
        · next hco =>
          obtain ⟨rfl, rfl, rfl⟩ := hco
          have hdn : dn ≠ dim.1 := fun hc => hcn ⟨rfl, rfl, rfl, hc⟩
          rw [tlookup_tupdate_other _ _ _ _ hdn]
          exact tlookup_getD_hval ..
        · rfl
      · have : increases acc.1 stage sv dim := Or.inr ⟨p, hv, hpv⟩
        simp [this]
    · rw [if_neg hpv]
      refine ⟨?_, ?_, ?_⟩
      · rw [hval_put, if_pos ⟨rfl, rfl, rfl⟩, key,
          show maxCombine (some p) |dim.2| = max p |dim.2| from rfl,
          max_eq_left (not_lt.mp hpv)]
      · intro a2 b2 c2 dn hcn
        rw [hval_put]
        split
        · next hco =>
          obtain ⟨rfl, rfl, rfl⟩ := hco
          exact tlookup_getD_hval ..
        · rfl
      · have : ¬increases acc.1 stage sv dim := by
          rintro (hc | ⟨q, hq, hlt⟩)
          · rw [hv] at hc; exact Option.noConfusion hc
          · rw [hv] at hq
            cases hq
            exact hpv hlt
        simp [this]

end Halo

namespace Halo

/-- One update step never decreases any stored halo value. -/
theorem uhStep_mono (sd : Option String) (stage : String) (sv : Int)
    (acc : Halos × Bool) (dim : String × Int) (a2 : String) (b2 : Bool)
    (c2 : Int) (dn : String) (v : Int)
    (hv : hval acc.1 a2 b2 c2 dn = some v) :
    ∃ w, hval (uhStep sd stage sv acc dim).1 a2 b2 c2 dn = some w
      ∧ v ≤ w := by
  by_cases hsd : sd = some dim.1
  · refine ⟨v, ?_, le_refl v⟩
    rw [(uhStep_stepdim sd stage sv acc dim hsd).2]
    exact hv
  · by_cases hco : a2 = stage ∧ b2 = decide (dim.2 ≤ 0) ∧ c2 = sv
        ∧ dn = dim.1
    · obtain ⟨rfl, rfl, rfl, rfl⟩ := hco
      refine ⟨max v |dim.2|, ?_, le_max_left v _⟩
      rw [(uhStep_nonstep sd _ _ acc dim hsd).1, hv]
      rfl
    · refine ⟨v, ?_, le_refl v⟩
      rw [(uhStep_nonstep sd stage sv acc dim hsd).2.1 a2 b2 c2 dn hco]
      exact hv

/-- The whole offsets fold never decreases any stored halo value. -/
theorem update_fold_mono (sd : Option String) (stage : String) (sv : Int)
    (l : Tuple) :
    ∀ (acc : Halos × Bool) (a2 : String) (b2 : Bool) (c2 : Int)
      (dn : String) (v : Int), hval acc.1 a2 b2 c2 dn = some v →
      ∃ w, hval (l.foldl (uhStep sd stage sv) acc).1 a2 b2 c2 dn = some w
        ∧ v ≤ w := by
  induction l with
  | nil =>
    intro acc a2 b2 c2 dn v hv
    exact ⟨v, hv, le_refl v⟩
  | cons dim t ih =>
    intro acc a2 b2 c2 dn v hv
    obtain ⟨w, hw, hvw⟩ := uhStep_mono sd stage sv acc dim a2 b2 c2 dn v hv
    obtain ⟨w2, hw2, hww⟩ :=
      ih (uhStep sd stage sv acc dim) a2 b2 c2 dn w hw
    exact ⟨w2, by rw [List.foldl_cons]; exact hw2, le_trans hvw hww⟩

/-- Entries the remaining dims never touch keep their value through the
fold. -/
theorem update_fold_preserve (sd : Option String) (stage : String)
    (sv : Int) (l : Tuple) :
    ∀ (acc : Halos × Bool) (a2 : String) (b2 : Bool) (c2 : Int)
      (dn : String),
      (∀ dim ∈ l, sd = some dim.1 ∨
        ¬(a2 = stage ∧ b2 = decide (dim.2 ≤ 0) ∧ c2 = sv ∧ dn = dim.1)) →
      hval (l.foldl (uhStep sd stage sv) acc).1 a2 b2 c2 dn
        = hval acc.1 a2 b2 c2 dn := by
  induction l with
  | nil => intro acc a2 b2 c2 dn _; rfl
  | cons dim t ih =>
    intro acc a2 b2 c2 dn hnone
    rw [List.foldl_cons,
      ih (uhStep sd stage sv acc dim) a2 b2 c2 dn
        (fun d hd => hnone d (List.mem_cons_of_mem _ hd))]
    by_cases hsd : sd = some dim.1
    · rw [(uhStep_stepdim sd stage sv acc dim hsd).2]
    · have hco := (hnone dim (List.mem_cons_self dim t)).resolve_left hsd
      rw [(uhStep_nonstep sd stage sv acc dim hsd).2.1 a2 b2 c2 dn hco]

end Halo

namespace Halo

/-- Pointwise-equal Boolean predicates give equal `any`. -/
theorem any_congr_mem {α : Type} (l : List α) (p q : α → Bool)
    (h : ∀ a ∈ l, p a = q a) : l.any p = l.any q := by
  induction l with
  | nil => rfl
  | cons a t ih =>
    rw [List.any_cons, List.any_cons, h a (List.mem_cons_self a t),
      ih (fun b hb => h b (List.mem_cons_of_mem _ hb))]

/-- The offsets fold records each non-step dim as the max of the old
value and its absolute offset, and ORs into the changed flag whether any
non-step dim added or increased an entry of the initial map. -/
theorem update_fold_main (sd : Option String) (stage : String) (sv : Int)
    (l : Tuple) :
    ∀ (acc : Halos × Bool), (l.map Prod.fst).Nodup →
    (∀ dim ∈ l, ¬sd = some dim.1 →
      hval (l.foldl (uhStep sd stage sv) acc).1 stage
          (decide (dim.2 ≤ 0)) sv dim.1
        = some (maxCombine
            (hval acc.1 stage (decide (dim.2 ≤ 0)) sv dim.1) |dim.2|)) ∧
    ((l.foldl (uhStep sd stage sv) acc).2
      = (acc.2 || l.any (fun dim =>
          !(sd == some dim.1) && decide (increases acc.1 stage sv dim)))) := by
  induction l with
  | nil =>
    intro acc _
    exact ⟨fun dim h => absurd h (List.not_mem_nil dim), by simp⟩
  | cons dim t ih =>
    intro acc hnd
    rw [List.map_cons, List.nodup_cons] at hnd
    obtain ⟨hnd1, hndt⟩ := hnd
    by_cases hsd : sd = some dim.1
    · obtain ⟨hflag, hpres⟩ := uhStep_stepdim sd stage sv acc dim hsd
      obtain ⟨ihA, ihB⟩ := ih (uhStep sd stage sv acc dim) hndt
      constructor
      · intro d hd hnsd
        rcases List.mem_cons.mp hd with rfl | hmem
        · exact absurd hsd hnsd
        · rw [List.foldl_cons, ihA d hmem hnsd, hpres]
      · rw [List.foldl_cons, ihB, hflag, List.any_cons]
        have hbeq : (sd == some dim.1) = true := by
          rw [beq_iff_eq]; exact hsd
        rw [hbeq]
        have hany : t.any (fun d =>
            !(sd == some d.1)
              && decide (increases (uhStep sd stage sv acc dim).1 stage sv d))
          = t.any (fun d =>
            !(sd == some d.1) && decide (increases acc.1 stage sv d)) := by
          apply any_congr_mem
          intro d _
          congr 1
          rw [decide_eq_decide]
          unfold increases
          rw [hpres]
        rw [hany]
        simp
    · obtain ⟨h1, h2, h3⟩ := uhStep_nonstep sd stage sv acc dim hsd
      obtain ⟨ihA, ihB⟩ := ih (uhStep sd stage sv acc dim) hndt
      constructor
      · intro d hd hnsd
        rcases List.mem_cons.mp hd with rfl | hmem
        · rw [List.foldl_cons,
            update_fold_preserve sd stage sv t (uhStep sd stage sv acc d)
              stage (decide (d.2 ≤ 0)) sv d.1 ?hp, h1]
          case hp =>
            intro d2 hd2
            right
            rintro ⟨_, _, _, hname⟩
            exact hnd1 (hname ▸ List.mem_map_of_mem Prod.fst hd2)
        · have hdn : d.1 ≠ dim.1 := by
            intro hc
            exact hnd1 (hc ▸ List.mem_map_of_mem Prod.fst hmem)
          rw [List.foldl_cons, ihA d hmem hnsd,
            h2 stage (decide (d.2 ≤ 0)) sv d.1
              (fun hc => hdn hc.2.2.2)]
      · rw [List.foldl_cons, ihB, h3, List.any_cons]
        have hbeq : (sd == some dim.1) = false := by
          rw [beq_eq_false_iff_ne]; exact hsd
        rw [hbeq]
        have hany : t.any (fun d =>
            !(sd == some d.1)
              && decide (increases (uhStep sd stage sv acc dim).1 stage sv d))
          = t.any (fun d =>
            !(sd == some d.1) && decide (increases acc.1 stage sv d)) := by
          apply any_congr_mem
          intro d hd
          have hdn : d.1 ≠ dim.1 := by
            intro hc
            exact hnd1 (hc ▸ List.mem_map_of_mem Prod.fst hd)
          congr 1
          rw [decide_eq_decide]
          unfold increases
          rw [h2 stage (decide (d.2 ≤ 0)) sv d.1 (fun hc => hdn hc.2.2.2)]
        rw [hany]
        simp [Bool.or_assoc]

end Halo

/-- C7: for every call of `update_halo(stage, offsets)` with each dim
named once: each non-step-dim offset is recorded as its absolute value
under the key `(stage, side, step-offset)` with side left iff the offset
is `<= 0` (max-combined with any existing value); no stored halo value
ever decreases; and the call returns `true` iff some halo entry was
added or increased. -/
theorem C7_update_halo (sd : Option String) (h : Halo.Halos)
    (stage : String) (offsets : Halo.Tuple)
    (hnd : (offsets.map Prod.fst).Nodup) :
    (∀ dim ∈ offsets, ¬sd = some dim.1 →
      Halo.hval (Halo.update_halo sd h stage offsets).1 stage
          (decide (dim.2 ≤ 0)) (Halo.uhStepVal sd offsets) dim.1
        = some (Halo.maxCombine
            (Halo.hval h stage (decide (dim.2 ≤ 0))
              (Halo.uhStepVal sd offsets) dim.1) |dim.2|)) ∧
    (∀ a2 b2 c2 dn v, Halo.hval h a2 b2 c2 dn = some v →
      ∃ w, Halo.hval (Halo.update_halo sd h stage offsets).1 a2 b2 c2 dn
          = some w ∧ v ≤ w) ∧
    ((Halo.update_halo sd h stage offsets).2 = true ↔
      ∃ dim ∈ offsets, ¬sd = some dim.1 ∧
        Halo.increases h stage (Halo.uhStepVal sd offsets) dim) := by
  obtain ⟨hA, hB⟩ := Halo.update_fold_main sd stage
    (Halo.uhStepVal sd offsets) offsets (h, false) hnd
  refine ⟨hA, ?_, ?_⟩
  · intro a2 b2 c2 dn v hv
    exact Halo.update_fold_mono sd stage _ offsets (h, false) a2 b2 c2 dn
      v hv
  · show (offsets.foldl
      (Halo.uhStep sd stage (Halo.uhStepVal sd offsets)) (h, false)).2
        = true ↔ _
    rw [hB]
    simp only [Bool.false_or, List.any_eq_true, Bool.and_eq_true,
      Bool.not_eq_true', beq_eq_false_iff_ne, decide_eq_true_eq, ne_eq]

/-- C7 witness: step dim `t`, offsets `t+1, x-2` on an empty halo map of
stage `s`: the `x` entry is created as 2 on the left side and the call
reports a change. -/
theorem C7_update_halo_witness :
    ((([("t", 1), ("x", -2)] : Halo.Tuple).map Prod.fst).Nodup) ∧
    Halo.hval (Halo.update_halo (some "t") [] "s"
        [("t", 1), ("x", -2)]).1 "s" (decide ((-2 : Int) ≤ 0))
        (Halo.uhStepVal (some "t") [("t", 1), ("x", -2)]) "x"
      = some (Halo.maxCombine
          (Halo.hval [] "s" (decide ((-2 : Int) ≤ 0))
            (Halo.uhStepVal (some "t") [("t", 1), ("x", -2)]) "x")
          |(-2 : Int)|) ∧
    (Halo.update_halo (some "t") [] "s" [("t", 1), ("x", -2)]).2
      = true := by
  have hnd : (([("t", 1), ("x", -2)] : Halo.Tuple).map Prod.fst).Nodup :=
    by decide
  have h := C7_update_halo (some "t") [] "s" [("t", 1), ("x", -2)] hnd
  refine ⟨hnd, h.1 ("x", -2) (by decide) (by decide), ?_⟩
  rw [h.2.2]
  exact ⟨("x", -2), by decide, by decide, Or.inl rfl⟩

/-! ## C2/C9: `Var::get_step_dim_info` (src/unnamed/part_001 lines
360-486) -/

/-- The result of `get_step_dim_info`.  The default `step_dim_size = 1`
is modelled from the spec ("for a var with no recorded halos ... the
allocation is 1"); the `StepDimInfo` struct itself is declared in Var.hpp,
which is not under src/. -/
structure StepDimInfo where
  step_dim_size : Int := 1
  writeback_ofs : List (String × Int) := []

/-- The `unset` sentinel of `get_step_dim_info` (part_001 line 388). -/
def unsetOfs : Int := -9999

/-- `IntTuple::max()` of a nonempty tuple: the maximum stored value. -/
def tmax : Halo.Tuple → Int
  | [] => 0
  | p :: t => t.foldl (fun a q => max a q.2) p.2

/-- One step of the `(is_written, first_ofs, last_ofs)` scan over a
stage's `(step-offset, halo)` entries (part_001 lines 396-416). -/
def scanStep (wofs : Option Int) (st : Bool × Int × Int)
    (e : Int × Halo.Tuple) : Bool × Int × Int :=
  let isw := st.1 || (wofs == some e.1)
  if e.2.length ≠ 0 then
    if st.2.1 = unsetOfs then (isw, e.1, e.1)
    else (isw, min st.2.1 e.1, max st.2.2 e.1)
  else (isw, st.2.1, st.2.2)

/-- The left/right then step-offset scan of one stage (part_001 lines
391-417). -/
def stageScan (wofs : Option Int) (h2 : Halo.StageMap) :
    Bool × Int × Int :=
  h2.foldl (fun st side => side.2.foldl (scanStep wofs) st)
    (false, unsetOfs, unsetOfs)

/-- `first_max_halo` / `last_max_halo` at a given extreme offset
(part_001 lines 439-448): max over the sides holding a nonempty tuple at
that offset, starting from 0. -/
def extremeMax (h2 : Halo.StageMap) (ofs : Int) : Int :=
  h2.foldl (fun acc side =>
    match Halo.alGet side.2 ofs with
    | some t => if t.length ≠ 0 then max acc (tmax t) else acc
    | none => acc) 0

/-- The per-stage body of `get_step_dim_info` (part_001 lines 377-471):
the stage's contribution to `max_sz` (none when fewer than two distinct
offsets carry halos) and its writeback entry. -/
def stageSz (wofs : Option Int) (h2 : Halo.StageMap) :
    Option Int × Option Int :=
  let scan := stageScan wofs h2
  let is_written := scan.1
  let first := scan.2.1
  let last := scan.2.2
  if last ≠ unsetOfs ∧ first ≠ unsetOfs ∧ last ≠ first then
    let sz := last - first + 1
    if is_written then
      let fm := extremeMax h2 first
      let lm := extremeMax h2 last
      if 1 < sz ∧ fm = 0 ∧ lm = 0 then
        let write_ofs := wofs.getD 0
        (some (sz - 1),
          if last = write_ofs then some first
          else if first = write_ofs then some last
          else none)
      else (some sz, none)
    else (some sz, none)
  else (none, none)

/-- `Var::get_step_dim_info` (part_001 lines 360-486): early return when
there is no step dim or no halo info; otherwise fold `max_sz` (and the
writeback map) over the stages, apply the two `_step_alloc` overrides,
and finally assign `step_dim_size = max_sz` (which overwrites the
overrides). -/
def get_step_dim_info (hasStep : Bool) (halos : Halo.Halos)
    (writePoints : List (String × Int)) (stepAlloc solnStepAlloc : Int) :
    StepDimInfo :=
  if hasStep = false then {}
  else if halos.length = 0 then {}
  else
    let res := halos.foldl
      (fun (acc : Int × List (String × Int)) stg =>
        match stageSz (Halo.alGet writePoints stg.1) stg.2 with
        | (some sz, wb) =>
          (max acc.1 sz,
            match wb with
            | some w => Halo.alSet acc.2 stg.1 w
            | none => acc.2)
        | (none, _) => acc)
      (1, [])
    let sdi : StepDimInfo := { writeback_ofs := res.2 }
    let sdi := if 0 < stepAlloc then
        { sdi with step_dim_size := stepAlloc } else sdi
    let sdi := if 0 < solnStepAlloc then
        { sdi with step_dim_size := solnStepAlloc } else sdi
    { sdi with step_dim_size := res.1 }

/-- C9: the two `_step_alloc` overrides of `get_step_dim_info` are dead:
the final assignment `sdi.step_dim_size = max_sz` overwrites them, so
the returned `step_dim_size` never depends on either override value. -/
theorem C9_step_alloc_override_dead (hasStep : Bool)
    (halos : Halo.Halos) (writePoints : List (String × Int))
    (stepAlloc solnStepAlloc : Int) :
    (get_step_dim_info hasStep halos writePoints stepAlloc
        solnStepAlloc).step_dim_size
      = (get_step_dim_info hasStep halos writePoints 0 0).step_dim_size := by
  unfold get_step_dim_info
  cases hasStep with
  | false => rfl
  | true =>
    by_cases hlen : halos.length = 0
    · simp [hlen]
    · simp [hlen]

/-- Keys with nonempty halo tuples in a flat `(step-offset, halo)` list. -/
def neKeysOf (l : List (Int × Halo.Tuple)) : List Int :=
  (l.filter (fun e => decide (e.2.length ≠ 0))).map Prod.fst

/-- The step-offset keys of a stage's halo map that carry a nonempty
halo tuple (either side). -/
def neOfsKeys (h2 : Halo.StageMap) : List Int :=
  neKeysOf (h2.flatMap (fun side => side.2))

/-- All step-offset keys of a stage's halo map (either side, empty halo
tuples included). -/
def allOfsKeys (h2 : Halo.StageMap) : List Int :=
  (h2.flatMap (fun side => side.2)).map Prod.fst

/-- The stage contribution as the original claim words it: highest minus
lowest nonempty-halo step offset plus 1, reduced by 1 exactly when the
maximum halo at both extreme offsets is zero and the stage writes at an
EXTREME offset. -/
def stageSzClaimOrig (wofs : Option Int) (h2 : Halo.StageMap) :
    Option Int :=
  match neOfsKeys h2 with
  | [] => none
  | k :: kt =>
    let lo := kt.foldl min k
    let hi := kt.foldl max k
    if lo = hi then none
    else some ((hi - lo + 1) -
      (if (wofs == some lo || wofs == some hi)
          ∧ extremeMax h2 lo = 0 ∧ extremeMax h2 hi = 0 then 1 else 0))

/-- The stage contribution as amended: the reduction requires the
stage's write offset to be one of the RECORDED step-offset keys of the
stage (either side, empty halo entries included), not necessarily an
extreme one. -/
def stageSzClaim (wofs : Option Int) (h2 : Halo.StageMap) : Option Int :=
  match neOfsKeys h2 with
  | [] => none
  | k :: kt =>
    let lo := kt.foldl min k
    let hi := kt.foldl max k
    let written : Bool := match wofs with
      | some w => (allOfsKeys h2).any (fun q => w == q)
      | none => false
    if lo = hi then none
    else some ((hi - lo + 1) -
      (if written ∧ extremeMax h2 lo = 0 ∧ extremeMax h2 hi = 0
        then 1 else 0))

/-- The step-dim allocation described by the claim: the max of 1 and
every stage's contribution under the given per-stage formula. -/
def claimStepDimSize (f : Option Int → Halo.StageMap → Option Int)
    (halos : Halo.Halos) (writePoints : List (String × Int)) : Int :=
  halos.foldl (fun m stg =>
    match f (Halo.alGet writePoints stg.1) stg.2 with
    | some sz => max m sz
    | none => m) 1

/-- C2 counterexample: one stage with halo entries at step offsets -2
(halo 0), 0 (halo 3) and 2 (halo 0), written at offset 0.  The code
applies the writeback reduction (both extreme halos are 0 and the write
offset 0 is a recorded key) and returns 4, while the claim's formula
("writes at an extreme offset") forbids the reduction and predicts 5. -/
theorem C2_counterexample :
    (get_step_dim_info true
        [("s", [(false, [((-2 : Int), [("x", (0 : Int))]),
                         (0, [("x", 3)]), (2, [("x", 0)])])])]
        [("s", (0 : Int))] 0 0).step_dim_size = 4 ∧
    claimStepDimSize stageSzClaimOrig
        [("s", [(false, [((-2 : Int), [("x", (0 : Int))]),
                         (0, [("x", 3)]), (2, [("x", 0)])])])]
        [("s", (0 : Int))] = 5 := by decide

/-- A min-fold over a list stays in the list (with its seed). -/
theorem foldl_min_mem (kt : List Int) :
    ∀ k : Int, kt.foldl min k ∈ k :: kt := by
  induction kt with
  | nil => intro k; exact List.mem_singleton.mpr rfl
  | cons a t ih =>
    intro k
    rw [List.foldl_cons]
    rcases List.mem_cons.mp (ih (min k a)) with hm | hm
    · rcases min_choice k a with hc | hc
      · rw [hm, hc]; exact List.mem_cons_self k _
      · rw [hm, hc]; exact List.mem_cons_of_mem k (List.mem_cons_self a t)
    · exact List.mem_cons_of_mem k (List.mem_cons_of_mem a hm)

/-- A max-fold over a list stays in the list (with its seed). -/
theorem foldl_max_mem (kt : List Int) :
    ∀ k : Int, kt.foldl max k ∈ k :: kt := by
  induction kt with
  | nil => intro k; exact List.mem_singleton.mpr rfl
  | cons a t ih =>
    intro k
    rw [List.foldl_cons]
    rcases List.mem_cons.mp (ih (max k a)) with hm | hm
    · rcases max_choice k a with hc | hc
      · rw [hm, hc]; exact List.mem_cons_self k _
      · rw [hm, hc]; exact List.mem_cons_of_mem k (List.mem_cons_self a t)
    · exact List.mem_cons_of_mem k (List.mem_cons_of_mem a hm)

/-- A min-fold is at most its seed. -/
theorem foldl_min_le (kt : List Int) : ∀ k : Int, kt.foldl min k ≤ k := by
  induction kt with
  | nil => intro k; exact le_refl k
  | cons a t ih =>
    intro k
    rw [List.foldl_cons]
    exact le_trans (ih (min k a)) (min_le_left k a)

/-- A max-fold is at least its seed. -/
theorem le_foldl_max (kt : List Int) : ∀ k : Int, k ≤ kt.foldl max k := by
  induction kt with
  | nil => intro k; exact le_refl k
  | cons a t ih =>
    intro k
    rw [List.foldl_cons]
    exact le_trans (le_max_left k a) (ih (max k a))

/-- Folding an inner fold over the sides equals folding over the
flattened entry list. -/
theorem foldl_inner_flat {γ δ : Type} (h2 : List (Bool × List γ))
    (f : δ → γ → δ) :
    ∀ init : δ,
      h2.foldl (fun st side => side.2.foldl f st) init
        = (h2.flatMap (fun side => side.2)).foldl f init := by
  induction h2 with
  | nil => intro init; rfl
  | cons side t ih =>
    intro init
    rw [List.foldl_cons, List.flatMap_cons, List.foldl_append]
    exact ih (side.2.foldl f init)

/-- The scan fold after the first nonempty-halo entry: the flag ORs the
write-offset matches, and first/last fold min/max over the remaining
nonempty keys. -/
theorem scan_fold_real (wofs : Option Int) (l : List (Int × Halo.Tuple))
    (hsent : ∀ k ∈ neKeysOf l, k ≠ unsetOfs) :
    ∀ (b0 : Bool) (f0 l0 : Int), f0 ≠ unsetOfs →
      l.foldl (scanStep wofs) (b0, f0, l0)
        = (b0 || l.any (fun e => wofs == some e.1),
           (neKeysOf l).foldl min f0,
           (neKeysOf l).foldl max l0) := by
  induction l with
  | nil =>
    intro b0 f0 l0 _
    simp [neKeysOf]
  | cons e t ih =>
    intro b0 f0 l0 hf0
    have hsentt : ∀ k ∈ neKeysOf t, k ≠ unsetOfs := by
      intro k hk
      exact hsent k (by
        unfold neKeysOf at hk ⊢
        rcases List.mem_map.mp hk with ⟨q, hq, rfl⟩
        exact List.mem_map_of_mem _ (by
          rw [List.filter_cons]
          split
          · exact List.mem_cons_of_mem _ hq
          · exact hq))
    rw [List.foldl_cons]
    by_cases he : e.2.length ≠ 0
    · have hstep : scanStep wofs (b0, f0, l0) e
          = (b0 || (wofs == some e.1), min f0 e.1, max l0 e.1) := by
        unfold scanStep
        rw [if_pos he, if_neg hf0]
      rw [hstep]
      have hkeys : neKeysOf (e :: t) = e.1 :: neKeysOf t := by
        unfold neKeysOf
        rw [List.filter_cons, if_pos (by simpa using he)]
        rfl
      have hhead : e.1 ≠ unsetOfs := by
        apply hsent
        rw [hkeys]
        exact List.mem_cons_self e.1 _
      have hmin : min f0 e.1 ≠ unsetOfs := by
        rcases min_choice f0 e.1 with hc | hc <;> rw [hc]
        · exact hf0
        · exact hhead
      rw [ih hsentt (b0 || (wofs == some e.1)) (min f0 e.1) (max l0 e.1)
        hmin, hkeys]
      rw [List.any_cons, List.foldl_cons, List.foldl_cons,
        Bool.or_assoc]
    · have hstep : scanStep wofs (b0, f0, l0) e
          = (b0 || (wofs == some e.1), f0, l0) := by
        unfold scanStep
        rw [if_neg he]
      rw [hstep]
      have hkeys : neKeysOf (e :: t) = neKeysOf t := by
        unfold neKeysOf
        rw [List.filter_cons, if_neg (by simpa using he)]
      rw [ih hsentt (b0 || (wofs == some e.1)) f0 l0 hf0, hkeys,
        List.any_cons, Bool.or_assoc]

/-- The full scan from the sentinel start state. -/
theorem scan_fold_start (wofs : Option Int) (l : List (Int × Halo.Tuple))
    (hsent : ∀ k ∈ neKeysOf l, k ≠ unsetOfs) :
    ∀ b0 : Bool,
      l.foldl (scanStep wofs) (b0, unsetOfs, unsetOfs)
        = (b0 || l.any (fun e => wofs == some e.1),
           match neKeysOf l with
           | [] => (unsetOfs, unsetOfs)
           | k :: kt => (kt.foldl min k, kt.foldl max k)) := by
  induction l with
  | nil =>
    intro b0
    simp [neKeysOf]
  | cons e t ih =>
    intro b0
    have hsentt : ∀ k ∈ neKeysOf t, k ≠ unsetOfs := by
      intro k hk
      refine hsent k ?_
      unfold neKeysOf at hk ⊢
      rcases List.mem_map.mp hk with ⟨q, hq, rfl⟩
      refine List.mem_map_of_mem _ ?_
      rw [List.filter_cons]
      split
      · exact List.mem_cons_of_mem _ hq
      · exact hq
    rw [List.foldl_cons]
    by_cases he : e.2.length ≠ 0
    · have hstep : scanStep wofs (b0, unsetOfs, unsetOfs) e
          = (b0 || (wofs == some e.1), e.1, e.1) := by
        unfold scanStep
        rw [if_pos he, if_pos rfl]
      have hkeys : neKeysOf (e :: t) = e.1 :: neKeysOf t := by
        unfold neKeysOf
        rw [List.filter_cons, if_pos (by simpa using he)]
        rfl
      have hhead : e.1 ≠ unsetOfs := by
        apply hsent
        rw [hkeys]
        exact List.mem_cons_self e.1 _
      rw [hstep, scan_fold_real wofs t hsentt
        (b0 || (wofs == some e.1)) e.1 e.1 hhead, hkeys,
        List.any_cons, Bool.or_assoc]
    · have hstep : scanStep wofs (b0, unsetOfs, unsetOfs) e
          = (b0 || (wofs == some e.1), unsetOfs, unsetOfs) := by
        unfold scanStep
        rw [if_neg he]
      have hkeys : neKeysOf (e :: t) = neKeysOf t := by
        unfold neKeysOf
        rw [List.filter_cons, if_neg (by simpa using he)]
      rw [hstep, ih hsentt (b0 || (wofs == some e.1)), hkeys,
        List.any_cons, Bool.or_assoc]

/-- The write-offset flag collected by the scan equals membership of the
write offset among all recorded keys. -/
theorem any_wofs (wofs : Option Int) (l : List (Int × Halo.Tuple)) :
    l.any (fun e => wofs == some e.1)
      = (match wofs with
         | some w => (l.map Prod.fst).any (fun q => w == q)
         | none => false) := by
  cases wofs with
  | none =>
    induction l with
    | nil => rfl
    | cons e t ih => rw [List.any_cons, ih]; rfl
  | some w =>
    show l.any (fun e => some w == some e.1)
      = (l.map Prod.fst).any (fun q => w == q)
    induction l with
    | nil => rfl
    | cons e t ih =>
      rw [List.map_cons, List.any_cons, List.any_cons, ih]
      rfl

/-- The stage scan in terms of nonempty-key min/max and write-offset
membership. -/
theorem stageScan_eq (wofs : Option Int) (h2 : Halo.StageMap)
    (hsent : ∀ k ∈ neOfsKeys h2, k ≠ unsetOfs) :
    stageScan wofs h2
      = ((h2.flatMap (fun side => side.2)).any
          (fun e => wofs == some e.1),
         match neOfsKeys h2 with
         | [] => (unsetOfs, unsetOfs)
         | k :: kt => (kt.foldl min k, kt.foldl max k)) := by
  unfold stageScan
  rw [foldl_inner_flat,
    scan_fold_start wofs (h2.flatMap (fun side => side.2)) hsent false,
    Bool.false_or]
  rfl

/-- The per-stage size computed by the code equals the amended claim's
per-stage formula (given no recorded nonempty-halo offset equals the
sentinel -9999). -/
theorem stageSz_fst_claim (wofs : Option Int) (h2 : Halo.StageMap)
    (hsent : ∀ k ∈ neOfsKeys h2, k ≠ unsetOfs) :
    (stageSz wofs h2).1 = stageSzClaim wofs h2 := by
  unfold stageSz stageSzClaim
  rw [stageScan_eq wofs h2 hsent]
  cases hks : neOfsKeys h2 with
  | nil =>
    simp only []
    rw [if_neg (fun hc => hc.1 rfl)]
  | cons k kt =>
    simp only []
    rw [hks] at hsent
    have hlo : kt.foldl min k ≠ unsetOfs := hsent _ (foldl_min_mem kt k)
    have hhi : kt.foldl max k ≠ unsetOfs := hsent _ (foldl_max_mem kt k)
    by_cases hlh : kt.foldl min k = kt.foldl max k
    · rw [if_neg (fun hc => hc.2.2 hlh.symm), if_pos hlh]
    · rw [if_pos ⟨hhi, hlo, fun hc => hlh hc.symm⟩, if_neg hlh]
      have hsz : (1 : Int) < kt.foldl max k - kt.foldl min k + 1 := by
        have h1 : kt.foldl min k ≤ k := foldl_min_le kt k
        have h2 : k ≤ kt.foldl max k := le_foldl_max kt k
        omega
      rw [any_wofs]
      unfold allOfsKeys
      cases wofs with
      | none =>
        simp only []
        rw [if_neg (fun hc => Bool.noConfusion hc),
          if_neg (fun hc => Bool.noConfusion hc.1), sub_zero]
      | some w =>
        simp only []
        by_cases hw : (((h2.flatMap (fun side => side.2)).map
            Prod.fst).any (fun q => w == q)) = true
        · simp only [hw]
          rw [if_pos trivial]
          by_cases hz : extremeMax h2 (kt.foldl min k) = 0
              ∧ extremeMax h2 (kt.foldl max k) = 0
          · rw [if_pos ⟨hsz, hz.1, hz.2⟩,
              if_pos (show True ∧ extremeMax h2 (kt.foldl min k) = 0
                  ∧ extremeMax h2 (kt.foldl max k) = 0 from
                ⟨trivial, hz.1, hz.2⟩)]
          · rw [if_neg (fun hc => hz ⟨hc.2.1, hc.2.2⟩),
              if_neg (show ¬(True ∧ extremeMax h2 (kt.foldl min k) = 0
                  ∧ extremeMax h2 (kt.foldl max k) = 0) from
                fun hc => hz ⟨hc.2.1, hc.2.2⟩), sub_zero]
        · have hw2 : (((h2.flatMap (fun side => side.2)).map
              Prod.fst).any (fun q => w == q)) = false :=
            Bool.eq_false_iff.mpr hw
          simp only [hw2]
          rw [if_neg (show ¬(false = true) from fun hc =>
              Bool.noConfusion hc),
            if_neg (show ¬((false = true) ∧ extremeMax h2 (kt.foldl min k)
                = 0 ∧ extremeMax h2 (kt.foldl max k) = 0) from
              fun hc => Bool.noConfusion hc.1), sub_zero]

/-- Fold congruence on members. -/
theorem foldl_congr_mem {α β : Type} (l : List α) (f g : β → α → β)
    (init : β) (h : ∀ b, ∀ a ∈ l, f b a = g b a) :
    l.foldl f init = l.foldl g init := by
  induction l generalizing init with
  | nil => rfl
  | cons a t ih =>
    rw [List.foldl_cons, List.foldl_cons,
      h init a (List.mem_cons_self a t)]
    exact ih _ (fun b a2 ha2 => h b a2 (List.mem_cons_of_mem _ ha2))

/-- The first component of the `max_sz`/writeback fold only depends on
the per-stage sizes. -/
theorem stage_fold_fst (wp : List (String × Int)) (halos : Halo.Halos) :
    ∀ init : Int × List (String × Int),
      (halos.foldl
        (fun (acc : Int × List (String × Int)) stg =>
          match stageSz (Halo.alGet wp stg.1) stg.2 with
          | (some sz, wb) =>
            (max acc.1 sz,
              match wb with
              | some w => Halo.alSet acc.2 stg.1 w
              | none => acc.2)
          | (none, _) => acc) init).1
        = halos.foldl
            (fun m stg =>
              match (stageSz (Halo.alGet wp stg.1) stg.2).1 with
              | some sz => max m sz
              | none => m) init.1 := by
  induction halos with
  | nil => intro init; rfl
  | cons stg t ih =>
    intro init
    rw [List.foldl_cons, List.foldl_cons]
    rcases hst : stageSz (Halo.alGet wp stg.1) stg.2 with ⟨s1, s2⟩
    cases s1 with
    | some sz =>
      cases s2 with
      | some w => rw [ih]
      | none => rw [ih]
    | none => rw [ih]

/-- C2 (amended): for a var with a step dim, `get_step_dim_info` returns
the max over stages of (highest minus lowest nonempty-halo step offset
plus 1), reduced by 1 for a stage exactly when the maximum halo at both
extreme offsets is zero and the stage's write offset is one of the
stage's recorded step-offset keys (on either side, empty halo entries
included) — not necessarily an extreme offset; stages with fewer than
two distinct nonempty-halo offsets contribute nothing and the result is
at least 1; without a step dim or halo info the result is 1.  (Recorded
nonempty-halo offsets are assumed distinct from the sentinel -9999.) -/
theorem C2_step_dim_size (halos : Halo.Halos)
    (wp : List (String × Int)) (sa ssa : Int)
    (hsent : ∀ stg ∈ halos, ∀ k ∈ neOfsKeys stg.2, k ≠ unsetOfs) :
    (get_step_dim_info true halos wp sa ssa).step_dim_size
      = (if halos.length = 0 then 1
         else claimStepDimSize stageSzClaim halos wp) ∧
    (get_step_dim_info false halos wp sa ssa).step_dim_size = 1 := by
  constructor
  · by_cases hlen : halos.length = 0
    · simp [get_step_dim_info, hlen]
    · rw [if_neg hlen]
      unfold get_step_dim_info
      rw [if_neg (fun hc => Bool.noConfusion hc), if_neg hlen]
      show (halos.foldl
        (fun (acc : Int × List (String × Int)) stg =>
          match stageSz (Halo.alGet wp stg.1) stg.2 with
          | (some sz, wb) =>
            (max acc.1 sz,
              match wb with
              | some w => Halo.alSet acc.2 stg.1 w
              | none => acc.2)
          | (none, _) => acc) (1, [])).1 = _
      rw [stage_fold_fst]
      unfold claimStepDimSize
      apply foldl_congr_mem
      intro m stg hstg
      rw [stageSz_fst_claim (Halo.alGet wp stg.1) stg.2
        (hsent stg hstg)]
  · rfl

/-- C2 witness: the amended theorem instantiated at the stage used in
the counterexample (step offsets -2, 0, 2; write offset 0): both sides
evaluate to 4. -/
theorem C2_step_dim_size_witness :
    (∀ stg ∈ ([("s", [(false, [((-2 : Int), [("x", (0 : Int))]),
        (0, [("x", 3)]), (2, [("x", 0)])])])] : Halo.Halos),
      ∀ k ∈ neOfsKeys stg.2, k ≠ unsetOfs) ∧
    (get_step_dim_info true
        [("s", [(false, [((-2 : Int), [("x", (0 : Int))]),
                         (0, [("x", 3)]), (2, [("x", 0)])])])]
        [("s", (0 : Int))] 0 0).step_dim_size
      = (if ([("s", [(false, [((-2 : Int), [("x", (0 : Int))]),
              (0, [("x", 3)]), (2, [("x", 0)])])])] : Halo.Halos).length
            = 0
         then 1
         else claimStepDimSize stageSzClaim
            [("s", [(false, [((-2 : Int), [("x", (0 : Int))]),
                             (0, [("x", 3)]), (2, [("x", 0)])])])]
            [("s", (0 : Int))]) := by
  have hsent : ∀ stg ∈ ([("s", [(false, [((-2 : Int), [("x", (0 : Int))]),
      (0, [("x", 3)]), (2, [("x", 0)])])])] : Halo.Halos),
      ∀ k ∈ neOfsKeys stg.2, k ≠ unsetOfs := by decide
  exact ⟨hsent, (C2_step_dim_size _ _ 0 0 hsent).1⟩

/-! ## C1: `StencilContext::exchange_halos` dirty-flag discipline
(context.cpp lines 1749-2102)

Only the dirty flags are tracked: MPI requests and the packed data are
outside the modelled state.  Vars are indexed positions in a list; the
pack/bundle/input-var traversal of the selection loop is abstracted to
the list of var indices it visits (`inputs`). -/

namespace Xch

/-- The per-var state consulted by `exchange_halos`: scratch flag, MPI
buffer presence (`mpiData.count`), step-dim usage with the allocated
step-index range, and the dirty flag per step index. -/
structure XVar where
  is_scratch : Bool
  has_mpi : Bool
  uses_step : Bool
  firstAlloc : Int
  lastAlloc : Int
  dirty : Int → Bool

/-- The step indices scanned for a var (context.cpp lines 1848-1854):
`start = min(0, first_alloc)` and `stop = max(1, last_alloc + 1)` when
the var uses the step dim, else the single index 0. -/
def allocRange (g : XVar) : List Int :=
  let start := if g.uses_step then min 0 g.firstAlloc else 0
  let stop := if g.uses_step then max 1 (g.lastAlloc + 1) else 1
  (List.range (stop - start).toNat).map (fun k => start + (k : Int))

/-- The steps inserted into `stepsToSwap` for var index `gi` (context.cpp
lines 1836-1873): the dirty allocated step indices, provided the var is
a non-scratch input var with MPI buffers. -/
def swapSteps (vars : List XVar) (inputs : List Nat) (gi : Nat) :
    List Int :=
  match vars.get? gi with
  | none => []
  | some g =>
    if gi ∈ inputs ∧ g.is_scratch = false ∧ g.has_mpi = true then
      (allocRange g).filter g.dirty
    else []

/-- `max_steps` (context.cpp line 1865). -/
def maxSteps (vars : List XVar) (inputs : List Nat) : Nat :=
  (List.range vars.length).foldl
    (fun m gi => max m (swapSteps vars inputs gi).length) 0

/-- The `halo_steps` phase enumeration (context.cpp line 1891). -/
inductive HaloStep where
  | irecv : HaloStep
  | packIsend : HaloStep
  | unpack : HaloStep
  | final : HaloStep

/-- `steps_to_do` (context.cpp lines 1892-1902). -/
def stepsToDo (doExt doInt : Bool) : List HaloStep :=
  (if doExt then [.irecv, .packIsend] else [])
    ++ (if doInt then [.unpack, .final] else [])

/-- The dirty-flag effect of the `halo_final` body for one var and slot
at one neighbor visit (context.cpp lines 2080-2085): clear the flag if
it is set. -/
def finalVisit (gi : Nat) (si : Int) (st : Nat → Int → Bool) :
    Nat → Int → Bool :=
  if st gi si = true then
    fun g t => if g = gi ∧ t = si then false else st g t
  else st

/-- The `halo_final` neighbor loop for one var and slot. -/
def finalNeighbors (nneighbors : Nat) (gi : Nat) (si : Int)
    (st : Nat → Int → Bool) : Nat → Int → Bool :=
  (List.range nneighbors).foldl (fun st _ => finalVisit gi si st) st

/-- The dirty-flag effect of one phase over all vars to swap at
step-vector index `svi` (context.cpp lines 1905-2091): only `halo_final`
touches dirty flags; vars whose step list is exhausted are skipped. -/
def phaseEffect (vars : List XVar) (inputs : List Nat) (nneighbors : Nat)
    (svi : Nat) (hs : HaloStep) (st : Nat → Int → Bool) :
    Nat → Int → Bool :=
  match hs with
  | .final =>
    (List.range vars.length).foldl
      (fun st gi =>
        let steps := swapSteps vars inputs gi
        if svi < steps.length then
          finalNeighbors nneighbors gi (steps.getD svi 0) st
        else st) st
  | _ => st

/-- The dirty flags after the non-test path of `exchange_halos`
(context.cpp lines 1749-2102): early return when halo exchange is
disabled or fewer than two ranks are active; otherwise the phase
sequence runs for each step-vector index. -/
def exchange_halos (vars : List XVar) (inputs : List Nat)
    (numRanks : Int) (enableHaloExchange testOnly doExt doInt : Bool)
    (nneighbors : Nat) : Nat → Int → Bool :=
  let init : Nat → Int → Bool := fun gi t =>
    ((vars.get? gi).map (fun g => g.dirty t)).getD false
  if enableHaloExchange = false ∨ numRanks < 2 then init
  else if testOnly = true then init
  else
    (List.range (maxSteps vars inputs)).foldl
      (fun st svi =>
        (stepsToDo doExt doInt).foldl
          (fun st hs => phaseEffect vars inputs nneighbors svi hs st) st)
      init

end Xch

namespace Xch

theorem finalVisit_at (gi : Nat) (si : Int) (st : Nat → Int → Bool) :
    finalVisit gi si st gi si = false := by
  unfold finalVisit
  by_cases h : st gi si = true
  · rw [if_pos h, if_pos ⟨rfl, rfl⟩]
  · rw [if_neg h]
    exact Bool.eq_false_iff.mpr h

theorem finalVisit_other (gi : Nat) (si : Int) (st : Nat → Int → Bool)
    (g : Nat) (t : Int) (h : ¬(g = gi ∧ t = si)) :
    finalVisit gi si st g t = st g t := by
  unfold finalVisit
  by_cases hd : st gi si = true
  · rw [if_pos hd, if_neg h]
  · rw [if_neg hd]

theorem finalNeighbors_other (gi : Nat) (si : Int) (g : Nat) (t : Int)
    (h : ¬(g = gi ∧ t = si)) :
    ∀ (l : List Nat) (st : Nat → Int → Bool),
      (l.foldl (fun st _ => finalVisit gi si st) st) g t = st g t := by
  intro l
  induction l with
  | nil => intro st; rfl
  | cons x r ih =>
    intro st
    rw [List.foldl_cons, ih (finalVisit gi si st),
      finalVisit_other gi si st g t h]

theorem finalNeighbors_at_fold (gi : Nat) (si : Int) :
    ∀ (l : List Nat) (st : Nat → Int → Bool), l ≠ [] →
      (l.foldl (fun st _ => finalVisit gi si st) st) gi si = false := by
  intro l
  induction l with
  | nil => intro st h; exact absurd rfl h
  | cons x r ih =>
    intro st _
    rw [List.foldl_cons]
    cases r with
    | nil => exact finalVisit_at gi si st
    | cons y r2 => exact ih (finalVisit gi si st) (List.cons_ne_nil y r2)

theorem finalNeighbors_at (nneighbors : Nat) (hn : 1 ≤ nneighbors)
    (gi : Nat) (si : Int) (st : Nat → Int → Bool) :
    finalNeighbors nneighbors gi si st gi si = false := by
  unfold finalNeighbors
  refine finalNeighbors_at_fold gi si (List.range nneighbors) st ?_
  intro hc
  have := List.range_eq_nil.mp hc
  omega

/-- The final phase clears exactly the slot scheduled at `svi` for each
selected var. -/
theorem phase_final_fold (vars : List XVar) (inputs : List Nat)
    (nneighbors : Nat) (hn : 1 ≤ nneighbors) (svi : Nat) :
    ∀ (l : List Nat), l.Nodup → ∀ (st : Nat → Int → Bool) (g : Nat)
      (t : Int),
      (l.foldl
        (fun st gi =>
          let steps := swapSteps vars inputs gi
          if svi < steps.length then
            finalNeighbors nneighbors gi (steps.getD svi 0) st
          else st) st) g t
        = if g ∈ l ∧ svi < (swapSteps vars inputs g).length
              ∧ t = (swapSteps vars inputs g).getD svi 0 then false
          else st g t := by
  intro l
  induction l with
  | nil =>
    intro _ st g t
    rw [if_neg (fun hc => List.not_mem_nil g hc.1)]
    rfl
  | cons gi r ih =>
    intro hnd st g t
    obtain ⟨hgir, hndr⟩ := List.nodup_cons.mp hnd
    rw [List.foldl_cons, ih hndr]
    by_cases hmem : g ∈ r ∧ svi < (swapSteps vars inputs g).length
        ∧ t = (swapSteps vars inputs g).getD svi 0
    · rw [if_pos hmem,
        if_pos ⟨List.mem_cons_of_mem _ hmem.1, hmem.2.1, hmem.2.2⟩]
    · rw [if_neg hmem]
      by_cases hg : g = gi
      · subst hg
        by_cases hlen : svi < (swapSteps vars inputs g).length
        · rw [if_pos hlen]
          by_cases ht : t = (swapSteps vars inputs g).getD svi 0
          · subst ht
            rw [finalNeighbors_at nneighbors hn,
              if_pos ⟨List.mem_cons_self g r, hlen, rfl⟩]
          · unfold finalNeighbors
            rw [finalNeighbors_other g _ g t (fun hc => ht hc.2),
              if_neg (fun hc => ht hc.2.2)]
        · rw [if_neg hlen, if_neg (fun hc => hlen hc.2.1)]
      · have hnr : ¬(g ∈ gi :: r ∧ svi < (swapSteps vars inputs g).length
            ∧ t = (swapSteps vars inputs g).getD svi 0) := by
          rintro ⟨hm, hc2, hc3⟩
          rcases List.mem_cons.mp hm with rfl | hmr
          · exact hg rfl
          · exact hmem ⟨hmr, hc2, hc3⟩
        rw [if_neg hnr]
        by_cases hlen : svi < (swapSteps vars inputs gi).length
        · rw [if_pos hlen]
          unfold finalNeighbors
          exact finalNeighbors_other gi _ g t (fun hc => hg hc.1) _ st
        · rw [if_neg hlen]

end Xch

namespace Xch

/-- A whole phase pass for one step-vector index has the dirty-flag
effect of its `halo_final` phase alone. -/
theorem pass_eq_final (vars : List XVar) (inputs : List Nat)
    (nneighbors : Nat) (svi : Nat) (doExt : Bool)
    (st : Nat → Int → Bool) :
    (stepsToDo doExt true).foldl
        (fun st hs => phaseEffect vars inputs nneighbors svi hs st) st
      = phaseEffect vars inputs nneighbors svi .final st := by
  cases doExt <;> rfl

/-- The per-index pass clears exactly the slot scheduled at `svi`. -/
theorem pass_char (vars : List XVar) (inputs : List Nat)
    (nneighbors : Nat) (hn : 1 ≤ nneighbors) (svi : Nat) (doExt : Bool)
    (st : Nat → Int → Bool) (g : Nat) (t : Int) :
    ((stepsToDo doExt true).foldl
        (fun st hs => phaseEffect vars inputs nneighbors svi hs st) st)
        g t
      = if g < vars.length ∧ svi < (swapSteps vars inputs g).length
            ∧ t = (swapSteps vars inputs g).getD svi 0 then false
        else st g t := by
  rw [pass_eq_final]
  show ((List.range vars.length).foldl _ st) g t = _
  rw [phase_final_fold vars inputs nneighbors hn svi
    (List.range vars.length) (List.nodup_range _) st g t]
  by_cases hc : g < vars.length ∧ svi < (swapSteps vars inputs g).length
      ∧ t = (swapSteps vars inputs g).getD svi 0
  · rw [if_pos ⟨List.mem_range.mpr hc.1, hc.2.1, hc.2.2⟩, if_pos hc]
  · rw [if_neg (fun hm => hc ⟨List.mem_range.mp hm.1, hm.2.1, hm.2.2⟩),
      if_neg hc]

/-- Once a flag is false, later passes keep it false. -/
theorem svi_fold_false (vars : List XVar) (inputs : List Nat)
    (nneighbors : Nat) (hn : 1 ≤ nneighbors) (doExt : Bool) :
    ∀ (L : List Nat) (st : Nat → Int → Bool) (g : Nat) (t : Int),
      st g t = false →
      (L.foldl (fun st svi =>
          (stepsToDo doExt true).foldl
            (fun st hs => phaseEffect vars inputs nneighbors svi hs st)
            st) st) g t = false := by
  intro L
  induction L with
  | nil => intro st g t h; exact h
  | cons svi r ih =>
    intro st g t h
    rw [List.foldl_cons]
    refine ih _ g t ?_
    rw [pass_char vars inputs nneighbors hn svi doExt st g t]
    by_cases hc : g < vars.length ∧ svi < (swapSteps vars inputs g).length
        ∧ t = (swapSteps vars inputs g).getD svi 0
    · rw [if_pos hc]
    · rw [if_neg hc]; exact h

/-- A flag never scheduled in `L` is untouched by the svi loop. -/
theorem svi_fold_preserve (vars : List XVar) (inputs : List Nat)
    (nneighbors : Nat) (hn : 1 ≤ nneighbors) (doExt : Bool) :
    ∀ (L : List Nat) (st : Nat → Int → Bool) (g : Nat) (t : Int),
      (∀ svi ∈ L, ¬(g < vars.length
        ∧ svi < (swapSteps vars inputs g).length
        ∧ t = (swapSteps vars inputs g).getD svi 0)) →
      (L.foldl (fun st svi =>
          (stepsToDo doExt true).foldl
            (fun st hs => phaseEffect vars inputs nneighbors svi hs st)
            st) st) g t = st g t := by
  intro L
  induction L with
  | nil => intro st g t _; rfl
  | cons svi r ih =>
    intro st g t h
    rw [List.foldl_cons,
      ih _ g t (fun s hs => h s (List.mem_cons_of_mem _ hs)),
      pass_char vars inputs nneighbors hn svi doExt st g t,
      if_neg (h svi (List.mem_cons_self svi r))]

/-- A flag scheduled somewhere in `L` ends up false. -/
theorem svi_fold_clear (vars : List XVar) (inputs : List Nat)
    (nneighbors : Nat) (hn : 1 ≤ nneighbors) (doExt : Bool) :
    ∀ (L : List Nat) (st : Nat → Int → Bool) (g : Nat) (t : Int),
      (∃ svi ∈ L, g < vars.length
        ∧ svi < (swapSteps vars inputs g).length
        ∧ t = (swapSteps vars inputs g).getD svi 0) →
      (L.foldl (fun st svi =>
          (stepsToDo doExt true).foldl
            (fun st hs => phaseEffect vars inputs nneighbors svi hs st)
            st) st) g t = false := by
  intro L
  induction L with
  | nil =>
    intro st g t h
    obtain ⟨svi, hsvi, _⟩ := h
    exact absurd hsvi (List.not_mem_nil svi)
  | cons svi r ih =>
    intro st g t h
    rw [List.foldl_cons]
    obtain ⟨s2, hs2, hcond⟩ := h
    rcases List.mem_cons.mp hs2 with rfl | hmem
    · refine svi_fold_false vars inputs nneighbors hn doExt r _ g t ?_
      rw [pass_char vars inputs nneighbors hn s2 doExt st g t,
        if_pos hcond]
    · exact ih _ g t ⟨s2, hmem, hcond⟩

/-- Any var's step-list length is bounded by `max_steps`. -/
theorem length_le_maxSteps (vars : List XVar) (inputs : List Nat)
    (gi : Nat) (hgi : gi < vars.length) :
    (swapSteps vars inputs gi).length ≤ maxSteps vars inputs := by
  unfold maxSteps
  have hmono : ∀ (l : List Nat) (init : Nat),
      init ≤ l.foldl
        (fun m g2 => max m (swapSteps vars inputs g2).length) init := by
    intro l
    induction l with
    | nil => intro init; exact le_refl init
    | cons x r ihm =>
      intro init
      rw [List.foldl_cons]
      exact le_trans (le_max_left _ _) (ihm _)
  have hmem : ∀ (l : List Nat) (init : Nat), gi ∈ l →
      (swapSteps vars inputs gi).length
        ≤ l.foldl (fun m g2 => max m (swapSteps vars inputs g2).length)
            init := by
    intro l
    induction l with
    | nil => intro init h; exact absurd h (List.not_mem_nil gi)
    | cons x r ihm =>
      intro init h
      rw [List.foldl_cons]
      rcases List.mem_cons.mp h with rfl | hr
      · exact le_trans (le_max_right _ _) (hmono r _)
      · exact ihm _ hr
  exact hmem (List.range vars.length) 0 (List.mem_range.mpr hgi)

end Xch

/-- C1: with more than one active rank and halo exchange enabled, the
non-test path of `exchange_halos` selects a (var, step-slot) pair iff
that var's dirty flag is set for that allocated step index (among the
non-scratch input vars with MPI buffers), and after the final wait phase
(run with the interior flag, visiting at least one neighbor) the dirty
flag of every exchanged slot is cleared; unselected slots are untouched. -/
theorem C1_exchange_halos (vars : List Xch.XVar) (inputs : List Nat)
    (numRanks : Int) (doExt : Bool) (nneighbors : Nat)
    (h2 : 2 ≤ numRanks) (hn : 1 ≤ nneighbors) :
    (∀ gi g, vars.get? gi = some g → gi ∈ inputs →
      g.is_scratch = false → g.has_mpi = true →
      ∀ t ∈ Xch.allocRange g,
        (t ∈ Xch.swapSteps vars inputs gi ↔ g.dirty t = true)) ∧
    (∀ gi t, t ∈ Xch.swapSteps vars inputs gi →
      Xch.exchange_halos vars inputs numRanks true false doExt true
        nneighbors gi t = false) ∧
    (∀ gi g t, vars.get? gi = some g →
      t ∉ Xch.swapSteps vars inputs gi →
      Xch.exchange_halos vars inputs numRanks true false doExt true
        nneighbors gi t = g.dirty t) := by
  have hguard : Xch.exchange_halos vars inputs numRanks true false doExt
      true nneighbors
    = (List.range (Xch.maxSteps vars inputs)).foldl
        (fun st svi =>
          (Xch.stepsToDo doExt true).foldl
            (fun st hs =>
              Xch.phaseEffect vars inputs nneighbors svi hs st) st)
        (fun gi t =>
          ((vars.get? gi).map (fun g => g.dirty t)).getD false) := by
    unfold Xch.exchange_halos
    rw [if_neg ?hg1, if_neg ?hg2]
    case hg1 =>
      rintro (hc | hc)
      · exact Bool.noConfusion hc
      · omega
    case hg2 => exact fun hc => Bool.noConfusion hc
  refine ⟨?_, ?_, ?_⟩
  · intro gi g hg hin hsc hmpi t ht
    unfold Xch.swapSteps
    rw [hg]
    simp only []
    rw [if_pos ⟨hin, hsc, hmpi⟩, List.mem_filter]
    exact ⟨fun h => h.2, fun h => ⟨ht, h⟩⟩
  · intro gi t hmem
    have hgi : gi < vars.length := by
      by_contra hge
      have hnone : vars.get? gi = none := List.get?_eq_none.mpr (by omega)
      unfold Xch.swapSteps at hmem
      rw [hnone] at hmem
      exact List.not_mem_nil t hmem
    obtain ⟨svi, hsvi, hget⟩ := List.mem_iff_getElem.mp hmem
    rw [hguard]
    refine Xch.svi_fold_clear vars inputs nneighbors hn doExt _ _ gi t
      ⟨svi, ?_, hgi, hsvi, ?_⟩
    · exact List.mem_range.mpr (lt_of_lt_of_le hsvi
        (Xch.length_le_maxSteps vars inputs gi hgi))
    · rw [List.getD_eq_getElem _ _ hsvi]
      exact hget.symm
  · intro gi g t hg hnot
    rw [hguard, Xch.svi_fold_preserve vars inputs nneighbors hn doExt
      _ _ gi t ?_]
    · rw [hg]
      rfl
    · intro svi _ hc
      obtain ⟨_, hlen, hslot⟩ := hc
      apply hnot
      rw [hslot, List.getD_eq_getElem _ _ hlen]
      exact List.getElem_mem hlen

/-- C1 witness: one var with allocated steps 0..2, dirty only at step 1,
an input var with MPI buffers, two ranks, one neighbor: step 1 is
selected and ends clean, step 0 is not selected and keeps its flag. -/
theorem C1_exchange_halos_witness :
    (2 : Int) ≤ 2 ∧ 1 ≤ 1 ∧
    ((1 : Int) ∈ Xch.swapSteps
        [⟨false, true, true, 0, 2, fun t => t == 1⟩] [0] 0) ∧
    Xch.exchange_halos [⟨false, true, true, 0, 2, fun t => t == 1⟩]
        [0] 2 true false true true 1 0 1 = false := by
  have h := C1_exchange_halos
    [⟨false, true, true, 0, 2, fun t => t == 1⟩] [0] 2 true 1
    (by decide) (by decide)
  have hmem : (1 : Int) ∈ Xch.swapSteps
      [⟨false, true, true, 0, 2, fun t => t == 1⟩] [0] 0 := by decide
  exact ⟨by decide, by decide, hmem, h.2.1 0 1 hmem⟩
